import Mathlib

/-!
Verification of the object-graph merge algorithm of the `pdf_merger` repository
(`src/merger.rs`).  The data model shallowly embeds the parts of the `lopdf`
object model that the merger manipulates: identifiers are (number, generation)
pairs, objects are a tagged union, a dictionary is an insertion-ordered
association list (lopdf's `Dictionary` is a linked hash map), and a document's
object table is an ordered map keyed by identifier (lopdf's `BTreeMap`),
represented as an association list kept in ascending key order.
-/

namespace PdfMerger

/-- An object identifier: a (number, generation) pair, mirroring lopdf's
`ObjectId = (u32, u16)`. -/
abbrev ObjectId := Nat × Nat

/-- Strict lexicographic order on identifiers, as Rust's derived `Ord` on the
`(u32, u16)` tuple compares. -/
def idLt (a b : ObjectId) : Bool :=
  decide (a.1 < b.1) || (decide (a.1 = b.1) && decide (a.2 < b.2))

/-- The lopdf `Object` union, restricted to the payloads the merger inspects.
A dictionary is an insertion-ordered list of (key, value) entries. -/
inductive Object where
  | null
  | boolean (b : Bool)
  | integer (n : Int)
  | name (s : String)
  | strLit (s : String)
  | array (xs : List Object)
  | dictionary (d : List (String × Object))
  | stream (dict : List (String × Object))
  | reference (id : ObjectId)

/-- A dictionary body: insertion-ordered key/value entries. -/
abbrev Dict := List (String × Object)

/-- First value bound to `k`, as linked-hash-map `get` (keys are unique in a
well-formed dictionary, so first = only). -/
def dictGet (d : Dict) (k : String) : Option Object :=
  match d with
  | [] => none
  | (k2, v) :: rest => if k2 = k then some v else dictGet rest k

/-- Key-membership test. -/
def dictHas (d : Dict) (k : String) : Bool :=
  (dictGet d k).isSome

/-- lopdf `Dictionary::set`: replace the value in place when the key exists
(keeping its position, as a linked hash map does), else append a new entry. -/
def dictSet (d : Dict) (k : String) (v : Object) : Dict :=
  match d with
  | [] => [(k, v)]
  | (k2, v2) :: rest => if k2 = k then (k, v) :: rest else (k2, v2) :: dictSet rest k v

/-- lopdf `Dictionary::remove`. -/
def dictRemove (d : Dict) (k : String) : Dict :=
  d.filter (fun p => decide (p.1 ≠ k))

/-- lopdf `Dictionary::extend`: insert every entry of `other` in order into
`d`, each insertion replacing any existing value for that key ("the existing
entries are replaced by the new ones"). -/
def dictExtend (d other : Dict) : Dict :=
  other.foldl (fun acc p => dictSet acc p.1 p.2) d

/-- An object table: lopdf's `BTreeMap<ObjectId, Object>`, embedded as an
association list kept in ascending key order. -/
abbrev ObjMap := List (ObjectId × Object)

/-- Map lookup. -/
def mapGet (m : ObjMap) (k : ObjectId) : Option Object :=
  match m with
  | [] => none
  | (k2, v) :: rest => if k2 = k then some v else mapGet rest k

/-- `BTreeMap::insert`: replace the value when the key is present, otherwise
place the new entry at its ordered position. -/
def btInsert (m : ObjMap) (k : ObjectId) (v : Object) : ObjMap :=
  match m with
  | [] => [(k, v)]
  | (k2, v2) :: rest =>
    if k = k2 then (k, v) :: rest
    else if idLt k k2 then (k, v) :: (k2, v2) :: rest
    else (k2, v2) :: btInsert rest k v

/-- `BTreeMap::extend`: insert every entry of `other` into `m` in iteration
order. -/
def btExtend (m other : ObjMap) : ObjMap :=
  other.foldl (fun acc p => btInsert acc p.1 p.2) m

/-- lopdf `Object::type_name`: the `Type` entry of a dictionary or of a
stream's dictionary, when it is a name object. -/
def type_name (o : Object) : Option String :=
  match o with
  | .dictionary d =>
    match dictGet d "Type" with
    | some (.name s) => some s
    | _ => none
  | .stream d =>
    match dictGet d "Type" with
    | some (.name s) => some s
    | _ => none
  | _ => none

/-- The merger always reads `type_name().unwrap_or("")`. -/
def typeTag (o : Object) : String :=
  (type_name o).getD ""

/-- lopdf `Object::as_dict`: succeeds exactly on the dictionary variant
(`Err(Error::Type)` otherwise, modelled as `none`). -/
def as_dict (o : Object) : Option Dict :=
  match o with
  | .dictionary d => some d
  | _ => none

/-- The error taxonomy surfaced by the merger: `Error::Type` from a failed
`as_dict`, `Error::ObjectNotFound` from a failed `get_object`, and the
`io::Error`-wrapped structural failure raised by `find_catalog_and_pages`. -/
inductive PdfError where
  | typeError
  | objectNotFound
  | structural (msg : String)

/-- The slice of lopdf's `Document` the merger touches: the object table, the
trailer dictionary, the running `max_id`, the version string, and the ordered
list of page-leaf identifiers that the external `get_pages` traversal reports
("list page identifiers in display order" — an external capability of the
loader, carried here as data so that `extract_pages` can consume it). -/
structure Document where
  version : String
  objects : ObjMap
  trailer : Dict
  pageIds : List ObjectId
  maxId : Nat

/-- `Document::with_version`: a fresh document with an empty table. -/
def Document.with_version (v : String) : Document :=
  { version := v, objects := [], trailer := [], pageIds := [], maxId := 0 }

/-- lopdf `Document::get_object`: direct table lookup. -/
def get_object (doc : Document) (id : ObjectId) : Except PdfError Object :=
  match mapGet doc.objects id with
  | some o => .ok o
  | none => .error .objectNotFound

mutual
/-- Apply an identifier substitution to every reference inside an object, as
lopdf's renumbering traversal does. -/
def renameObject (f : ObjectId → ObjectId) : Object → Object
  | .null => .null
  | .boolean b => .boolean b
  | .integer n => .integer n
  | .name s => .name s
  | .strLit s => .strLit s
  | .array xs => .array (renameList f xs)
  | .dictionary d => .dictionary (renameDict f d)
  | .stream d => .stream (renameDict f d)
  | .reference id => .reference (f id)

/-- `renameObject` mapped over a list. -/
def renameList (f : ObjectId → ObjectId) : List Object → List Object
  | [] => []
  | x :: xs => renameObject f x :: renameList f xs

/-- `renameObject` mapped over the values of a dictionary. -/
def renameDict (f : ObjectId → ObjectId) : Dict → Dict
  | [] => []
  | (k, v) :: rest => (k, renameObject f v) :: renameDict f rest
end

/-- The substitution lopdf's `renumber_objects_with(starting_id)` builds: the
i-th key of the table, in ascending order, is sent to
`(starting_id + i, generation)`; identifiers absent from the table are left
alone. -/
def replaceMap (ks : List ObjectId) (startingId : Nat) (id : ObjectId) : ObjectId :=
  match ks with
  | [] => id
  | a :: rest => if a = id then (startingId, id.2) else replaceMap rest (startingId + 1) id

/-- Rebuild the object table under renumbering: the entry at position `i`
(ascending key order) moves to key `(start + i, generation)` with the
substitution applied to its value. -/
def renumberEntries (f : ObjectId → ObjectId) (start : Nat) : ObjMap → ObjMap
  | [] => []
  | (k, v) :: rest => ((start, k.2), renameObject f v) :: renumberEntries f (start + 1) rest

/-- lopdf `Document::renumber_objects_with(starting_id)`: assign consecutive
numbers from `starting_id` to the objects in ascending key order (keeping each
generation), rewrite every reference (table values and trailer) through the
substitution, and set `max_id` to the new highest number.  The table list is
kept in ascending key order by the whole development, matching lopdf's sort of
the keys before assignment; the page-identifier list is rewritten as the
external page traversal would report it after renumbering. -/
def renumber_objects_with (doc : Document) (startingId : Nat) : Document :=
  let f := replaceMap (doc.objects.map Prod.fst) startingId
  { version := doc.version
    objects := renumberEntries f startingId doc.objects
    trailer := renameDict f doc.trailer
    pageIds := doc.pageIds.map f
    maxId := startingId + doc.objects.length - 1 }

/-- lopdf `Document::renumber_objects`: renumber from 1. -/
def renumber_objects (doc : Document) : Document :=
  renumber_objects_with doc 1

/-- lopdf `Document::compress`: re-encodes stream contents (byte-level, out of
scope); the object graph structure is unchanged at this abstraction. -/
def compress (doc : Document) : Document :=
  doc

/-- The collection loop of `extract_pages`: walk the page identifiers in
display order, aborting on the first missing object. -/
def extractGo (objects : ObjMap) : List ObjectId → ObjMap → Except PdfError ObjMap
  | [], acc => .ok acc
  | object_id :: rest, acc =>
    match mapGet objects object_id with
    | some o => extractGo objects rest (btInsert acc object_id o)
    | none => .error .objectNotFound

/-- `extract_pages` (src/merger.rs): for each page identifier reported by the
document's root-to-leaf traversal, in display order, pair it with a copy of
the object it names; collect into an ordered map, aborting on the first
missing object. -/
def extract_pages (document : Document) : Except PdfError ObjMap :=
  extractGo document.objects document.pageIds []

/-- The loop body fold of `process_documents` (src/merger.rs): renumber each
document starting at the running `max_id`, advance `max_id` past the
document's new highest identifier, and extend the running page and object
aggregates. -/
def processGo : List Document → Nat → ObjMap → ObjMap → Except PdfError (ObjMap × ObjMap)
  | [], _, documents_pages, documents_objects => .ok (documents_pages, documents_objects)
  | d :: rest, maxId, documents_pages, documents_objects =>
    let d2 := renumber_objects_with d maxId
    match extract_pages d2 with
    | .error e => .error e
    | .ok pages =>
      processGo rest (d2.maxId + 1) (btExtend documents_pages pages)
        (btExtend documents_objects d2.objects)

/-- `process_documents` (src/merger.rs): fold the documents in input order
with the running counter initialised to 1. -/
def process_documents (documents : List Document) : Except PdfError (ObjMap × ObjMap) :=
  processGo documents 1 [] []

/-- The classification loop of `find_catalog_and_pages` (src/merger.rs),
iterating the aggregated table in ascending key order: retain the first
Catalog; fold each Pages dictionary into the accumulator (the new instance's
fields first, then the accumulator's entries overlaid on top); drop Page,
Outlines and Outline objects; copy everything else into the output table. -/
def fcpGo (doc : Document) :
    List (ObjectId × Object) → Option (ObjectId × Object) → Option (ObjectId × Object) →
    Document × Option (ObjectId × Object) × Option (ObjectId × Object)
  | [], catalog_object, pages_object => (doc, catalog_object, pages_object)
  | (object_id, object) :: rest, catalog_object, pages_object =>
    let t := typeTag object
    if t = "Catalog" then
      fcpGo doc rest
        (if catalog_object.isNone then some (object_id, object) else catalog_object)
        pages_object
    else if t = "Pages" then
      match as_dict object with
      | some dictionary =>
        let new_dictionary :=
          match pages_object with
          | some (_, existing_object) =>
            match as_dict existing_object with
            | some old_dictionary => dictExtend dictionary old_dictionary
            | none => dictionary
          | none => dictionary
        fcpGo doc rest catalog_object (some (object_id, Object.dictionary new_dictionary))
      | none => fcpGo doc rest catalog_object pages_object
    else if t = "Page" then
      fcpGo doc rest catalog_object pages_object
    else if t = "Outlines" then
      fcpGo doc rest catalog_object pages_object
    else if t = "Outline" then
      fcpGo doc rest catalog_object pages_object
    else
      fcpGo { doc with objects := btInsert doc.objects object_id object } rest
        catalog_object pages_object

/-- `find_catalog_and_pages` (src/merger.rs): classify the aggregated table;
fail with the structural error when no Catalog or no Pages was found. -/
def find_catalog_and_pages (document : Document) (documents_objects : ObjMap) :
    Except PdfError (Document × ((ObjectId × Object) × (ObjectId × Object))) :=
  match fcpGo document documents_objects none none with
  | (doc, some catalog, some pages) => .ok (doc, (catalog, pages))
  | _ => .error (.structural "Failed to find catalog and pages objects")

/-- The attachment loop of `insert_pages`: walk the aggregated leaves in
ascending identifier order, aborting on the first non-dictionary leaf. -/
def insertPagesGo (pages_id : ObjectId) :
    List (ObjectId × Object) → Document → Except PdfError Document
  | [], doc => .ok doc
  | p :: rest, doc =>
    match as_dict p.2 with
    | some dictionary =>
      insertPagesGo pages_id rest
        { doc with
          objects := btInsert doc.objects p.1
            (Object.dictionary (dictSet dictionary "Parent" (Object.reference pages_id))) }
    | none => .error .typeError

/-- `insert_pages` (src/merger.rs): for every aggregated leaf in ascending
identifier order, require it to be a dictionary (aborting the merge with the
type error otherwise), set its `Parent` to the reconciled Pages identifier,
and insert it into the output table. -/
def insert_pages (document : Document) (documents_pages : ObjMap) (pages_id : ObjectId) :
    Except PdfError Document :=
  insertPagesGo pages_id documents_pages document

/-- `update_pages_object` (src/merger.rs): when the reconciled Pages object is
a dictionary, set its `Count` to the aggregated leaf count and its `Kids` to
references to every leaf identifier in ascending order, and write it back at
`pages_id`; silently do nothing otherwise. -/
def update_pages_object (document : Document) (pages_object : Object)
    (documents_pages : ObjMap) (pages_id : ObjectId) : Except PdfError Document :=
  match as_dict pages_object with
  | some dictionary =>
    let d1 := dictSet dictionary "Count" (Object.integer documents_pages.length)
    let d2 := dictSet d1 "Kids"
      (Object.array (documents_pages.map (fun p => Object.reference p.1)))
    .ok { document with objects := btInsert document.objects pages_id (Object.dictionary d2) }
  | none => .ok document

/-- `update_catalog_object` (src/merger.rs): when the retained Catalog object
is a dictionary, point its `Pages` entry at the reconciled Pages identifier,
remove the `Outlines` entry, and write it back at `catalog_id`; silently do
nothing otherwise. -/
def update_catalog_object (document : Document) (catalog_object : Object)
    (catalog_id pages_id : ObjectId) : Except PdfError Document :=
  match as_dict catalog_object with
  | some dictionary =>
    let d1 := dictSet dictionary "Pages" (Object.reference pages_id)
    let d2 := dictRemove d1 "Outlines"
    .ok { document with objects := btInsert document.objects catalog_id (Object.dictionary d2) }
  | none => .ok document

/-- `merge_documents` (src/merger.rs): reconcile the anchors, attach the
leaves, rewrite the Pages and Catalog nodes, install the root pointer, reset
`max_id` from the object count, renumber densely from 1 and compress. -/
def merge_documents (documents_pages documents_objects : ObjMap) :
    Except PdfError Document :=
  match find_catalog_and_pages (Document.with_version "1.5") documents_objects with
  | .error e => .error e
  | .ok (document, (catalog_id, catalog_object), (pages_id, pages_object)) =>
    match insert_pages document documents_pages pages_id with
    | .error e => .error e
    | .ok document =>
      match update_pages_object document pages_object documents_pages pages_id with
      | .error e => .error e
      | .ok document =>
        match update_catalog_object document catalog_object catalog_id pages_id with
        | .error e => .error e
        | .ok document =>
          let document :=
            { document with
              trailer := dictSet document.trailer "Root" (Object.reference catalog_id) }
          let document := { document with maxId := document.objects.length }
          .ok (compress (renumber_objects document))

/-- `merge_pdfs` (src/merger.rs) with the external Loader factored out: the
byte-level `Document::load` of each path is out of scope, so the pipeline is
taken from the loaded documents.  Loading failures abort before this point. -/
def merge_pdfs_from (documents : List Document) : Except PdfError Document :=
  match process_documents documents with
  | .error e => .error e
  | .ok (documents_pages, documents_objects) =>
    merge_documents documents_pages documents_objects

/-! ### Observers used to state properties of an output document -/

/-- Number of objects in the table whose role tag is `t`. -/
def countTag (m : ObjMap) (t : String) : Nat :=
  m.countP (fun p => typeTag p.2 == t)

/-- The trailer's `Root` pointer, when it is a reference. -/
def rootId (doc : Document) : Option ObjectId :=
  match dictGet doc.trailer "Root" with
  | some (.reference id) => some id
  | _ => none

/-- The value bound to key `k` in the dictionary stored at `id`. -/
def valAt (m : ObjMap) (id : ObjectId) (k : String) : Option Object :=
  match mapGet m id with
  | some o =>
    match as_dict o with
    | some d => dictGet d k
    | none => none
  | none => none

/-- The identifiers referenced by the `Kids` array of the object at `id`. -/
def kidsOf (m : ObjMap) (id : ObjectId) : List ObjectId :=
  match valAt m id "Kids" with
  | some (.array xs) =>
    xs.filterMap (fun o => match o with | .reference i => some i | _ => none)
  | _ => []

/-- The length of the `Kids` array of the object at `id` (0 when absent). -/
def kidsLen (m : ObjMap) (id : ObjectId) : Nat :=
  (kidsOf m id).length

/-- The `Count` entry of the object at `id`, when it is an integer. -/
def countField (m : ObjMap) (id : ObjectId) : Option Int :=
  match valAt m id "Count" with
  | some (.integer n) => some n
  | _ => none

/-- The `Parent` entry of the object at `id`, when it is a reference. -/
def parentOf (m : ObjMap) (id : ObjectId) : Option ObjectId :=
  match valAt m id "Parent" with
  | some (.reference i) => some i
  | _ => none

/-- The integer bound to key `k` at `id`, when present. -/
def intAt (m : ObjMap) (id : ObjectId) (k : String) : Option Int :=
  match valAt m id k with
  | some (.integer n) => some n
  | _ => none

/-- The keys of the table entries whose role tag is `t`, in table order. -/
def idsTagged (m : ObjMap) (t : String) : List ObjectId :=
  (m.filter (fun p => typeTag p.2 == t)).map (fun p => p.1)

/-! ### Auxiliary definitions used in statements and proofs -/

/-- The key list of a table, in iteration order. -/
def keys (m : ObjMap) : List ObjectId := m.map Prod.fst

/-- The key list of a dictionary, in iteration order. -/
def dictKeys (d : Dict) : List String := d.map Prod.fst

/-- The table is in strictly ascending key order — the `BTreeMap` invariant,
maintained by every constructor in this development. -/
def SortedKeys (m : ObjMap) : Prop :=
  List.Pairwise (fun a b => idLt a b = true) (keys m)

/-- The role tag of the object stored at `k` (`""` when absent). -/
def tagAt (m : ObjMap) (k : ObjectId) : String :=
  match mapGet m k with
  | some v => typeTag v
  | none => ""

/-- Tags that `find_catalog_and_pages` copies through unchanged. -/
def isPassTag (t : String) : Bool :=
  !(t == "Catalog" || t == "Pages" || t == "Page" || t == "Outlines" || t == "Outline")

/-- The entries the classification loop copies through unchanged. -/
def passEntries (es : List (ObjectId × Object)) : List (ObjectId × Object) :=
  es.filter (fun p => isPassTag (typeTag p.2))

/-- The Pages-tagged dictionary entries of the table, in table order. -/
def pagesDictEntries (es : List (ObjectId × Object)) : List (ObjectId × Object) :=
  es.filter (fun p => typeTag p.2 == "Pages" && (as_dict p.2).isSome)

/-- The dictionaries of the Pages-tagged dictionary objects, in table order. -/
def pagesDicts (es : List (ObjectId × Object)) : List Dict :=
  es.filterMap (fun p => if typeTag p.2 == "Pages" then as_dict p.2 else none)

/-- The value for key `k` in the earliest dictionary of `ds` that binds it. -/
def firstVal (ds : List Dict) (k : String) : Option Object :=
  ds.findSome? (fun d => dictGet d k)

/-- Invariant of the Pages accumulator of the classification loop: after the
Pages dictionaries `prev` have been folded, the accumulator is a dictionary
that binds every key to the value of the earliest dictionary of `prev`
binding it (and is absent exactly when no Pages dictionary was seen). -/
def PagesInv (prev : List Dict) : Option (ObjectId × Object) → Prop
  | none => prev = []
  | some q => ∃ A, q.2 = Object.dictionary A ∧ (dictKeys A).Nodup ∧
      (∀ k, dictGet A k = firstVal prev k) ∧
      dictGet A "Type" = some (Object.name "Pages")

/-- The leaf entry `insert_pages` writes for an aggregated leaf: the same
dictionary with `Parent` pointing at the reconciled Pages identifier. -/
def attachLeaf (pages_id : ObjectId) (p : ObjectId × Object) : ObjectId × Object :=
  (p.1, Object.dictionary (dictSet ((as_dict p.2).getD []) "Parent" (Object.reference pages_id)))

/-- Number of table entries whose value satisfies `q`. -/
def countV (m : ObjMap) (q : Object → Bool) : Nat :=
  m.countP (fun p => q p.2)

/-- Every dictionary object (and stream dictionary) in the table has unique
keys — true of every lopdf `Dictionary`. -/
def NodupDicts (m : ObjMap) : Prop :=
  ∀ p ∈ m, (dictKeys ((as_dict p.2).getD [])).Nodup

/-- Loader contract for an input document: the table is in ascending key
order and the display-order page traversal names identifiers of the
document's own table. -/
def DocWF (d : Document) : Prop :=
  SortedKeys d.objects ∧ ∀ id ∈ d.pageIds, id ∈ keys d.objects

/-- Whether the object stored at `k` is a dictionary. -/
def isDictAt (m : ObjMap) (k : ObjectId) : Bool :=
  (as_dict ((mapGet m k).getD Object.null)).isSome

/-- Leaf contract for an input document: every identifier the page traversal
reports names a Page-tagged dictionary of the table. -/
def PageWF (doc : Document) : Prop :=
  ∀ id ∈ doc.pageIds, tagAt doc.objects id = "Page" ∧ isDictAt doc.objects id = true

/-- The object-table sizes of the input documents, in input order. -/
def docSizes (docs : List Document) : List Nat :=
  docs.map (fun d => d.objects.length)

/-- The running-counter value at which document `i` is renumbered when the
counter starts at `c`: `c` plus the sizes of all earlier documents. -/
def startAtC (c : Nat) (docs : List Document) (i : Nat) : Nat :=
  c + ((docSizes docs).take i).sum

/-- The integer bound to key `kn` when the object is a dictionary. -/
def intOfObj (o : Object) (kn : String) : Option Int :=
  match o with
  | .dictionary d =>
    match dictGet d kn with
    | some (.integer n) => some n
    | _ => none
  | _ => none

instance decSortedKeys (m : ObjMap) : Decidable (SortedKeys m) :=
  inferInstanceAs (Decidable (List.Pairwise (fun a b => idLt a b = true) (keys m)))

instance decDocWF (d : Document) : Decidable (DocWF d) :=
  inferInstanceAs (Decidable (SortedKeys d.objects ∧ ∀ id ∈ d.pageIds, id ∈ keys d.objects))

instance decPageWF (doc : Document) : Decidable (PageWF doc) :=
  inferInstanceAs (Decidable (∀ id ∈ doc.pageIds,
    tagAt doc.objects id = "Page" ∧ isDictAt doc.objects id = true))

instance decNodupDicts (m : ObjMap) : Decidable (NodupDicts m) :=
  inferInstanceAs (Decidable (∀ p ∈ m, (dictKeys ((as_dict p.2).getD [])).Nodup))

/-! ### Concrete documents, mirroring the repository's `create_simple_pdf`
test fixture (a one-page document: Pages root, font, resources, content
stream, one Page leaf, Catalog).  The `Tag` integer distinguishes where a
page came from. -/

/-- A one-page document shaped like the repository's test fixture. -/
def simplePdf (tag : Int) : Document :=
  { version := "1.5"
    objects :=
      [ ((1, 0), Object.dictionary
          [("Type", Object.name "Pages"),
           ("Kids", Object.array [Object.reference (5, 0)]),
           ("Count", Object.integer 1)])
      , ((2, 0), Object.dictionary
          [("Type", Object.name "Font"), ("Subtype", Object.name "Type1"),
           ("BaseFont", Object.name "Courier")])
      , ((3, 0), Object.dictionary
          [("Font", Object.dictionary [("F1", Object.reference (2, 0))])])
      , ((4, 0), Object.stream [])
      , ((5, 0), Object.dictionary
          [("Type", Object.name "Page"), ("Parent", Object.reference (1, 0)),
           ("Contents", Object.reference (4, 0)), ("Tag", Object.integer tag)])
      , ((6, 0), Object.dictionary
          [("Type", Object.name "Catalog"), ("Pages", Object.reference (1, 0))]) ]
    trailer := [("Root", Object.reference (6, 0))]
    pageIds := [(5, 0)]
    maxId := 6 }

/-- A document whose page tree lists its two Page leaves in the reverse of
their identifier order: the Kids array (and hence `pageIds`, the loader's
display order) is `[(3,0), (2,0)]`, but the identifiers ascend `(2,0), (3,0)`. -/
def cexOrderDoc : Document :=
  { version := "1.5"
    objects :=
      [ ((1, 0), Object.dictionary
          [("Type", Object.name "Pages"),
           ("Kids", Object.array [Object.reference (3, 0), Object.reference (2, 0)]),
           ("Count", Object.integer 2)])
      , ((2, 0), Object.dictionary
          [("Type", Object.name "Page"), ("Parent", Object.reference (1, 0)),
           ("Tag", Object.integer 2)])
      , ((3, 0), Object.dictionary
          [("Type", Object.name "Page"), ("Parent", Object.reference (1, 0)),
           ("Tag", Object.integer 1)])
      , ((4, 0), Object.dictionary
          [("Type", Object.name "Catalog"), ("Pages", Object.reference (1, 0))]) ]
    trailer := [("Root", Object.reference (4, 0))]
    pageIds := [(3, 0), (2, 0)]
    maxId := 4 }

/-- A document whose only Catalog-typed object is a stream, not a dictionary:
its dictionary part carries `Type = Catalog` but `as_dict` fails on it. -/
def streamCatalogDoc : Document :=
  { version := "1.5"
    objects :=
      [ ((1, 0), Object.dictionary [("Type", Object.name "Font")])
      , ((2, 0), Object.dictionary
          [("Type", Object.name "Pages"), ("Kids", Object.array []),
           ("Count", Object.integer 0)])
      , ((3, 0), Object.stream
          [("Type", Object.name "Catalog"), ("Pages", Object.reference (2, 0))]) ]
    trailer := [("Root", Object.reference (3, 0))]
    pageIds := []
    maxId := 3 }

/-- The two-document example the repository's own test merges. -/
def exDocs : List Document := [simplePdf 1, simplePdf 2]

/-- The pages map produced by processing `exDocs`. -/
def exPages : ObjMap :=
  match process_documents exDocs with
  | .ok (dp, _) => dp
  | .error _ => []

/-- The object map produced by processing `exDocs`. -/
def exObjs : ObjMap :=
  match process_documents exDocs with
  | .ok (_, es) => es
  | .error _ => []

/-- The first Catalog entry of `exObjs`. -/
def exC0 : ObjectId × Object :=
  (exObjs.find? (fun p => typeTag p.2 == "Catalog")).getD ((0, 0), Object.null)

/-- The last Pages-dictionary entry of `exObjs`. -/
def exE0 : ObjectId × Object :=
  ((pagesDictEntries exObjs).getLast?).getD ((0, 0), Object.null)

/-- The dictionary of `exC0`. -/
def exCatDict : Dict := (as_dict exC0.2).getD []

/-- The fixture document extended with an outline tree: the catalog carries an
`Outlines` entry and the table holds an Outlines-tagged object. -/
def outlinesDoc : Document :=
  { version := "1.5"
    objects :=
      [ ((1, 0), Object.dictionary
          [("Type", Object.name "Pages"),
           ("Kids", Object.array [Object.reference (5, 0)]),
           ("Count", Object.integer 1)])
      , ((2, 0), Object.dictionary
          [("Type", Object.name "Font"), ("Subtype", Object.name "Type1"),
           ("BaseFont", Object.name "Courier")])
      , ((3, 0), Object.dictionary
          [("Font", Object.dictionary [("F1", Object.reference (2, 0))])])
      , ((4, 0), Object.stream [])
      , ((5, 0), Object.dictionary
          [("Type", Object.name "Page"), ("Parent", Object.reference (1, 0)),
           ("Contents", Object.reference (4, 0)), ("Tag", Object.integer 1)])
      , ((6, 0), Object.dictionary
          [("Type", Object.name "Catalog"), ("Pages", Object.reference (1, 0)),
           ("Outlines", Object.reference (7, 0))])
      , ((7, 0), Object.dictionary
          [("Type", Object.name "Outlines"), ("Count", Object.integer 0)]) ]
    trailer := [("Root", Object.reference (6, 0))]
    pageIds := [(5, 0)]
    maxId := 7 }

/-- A one-document input whose catalog carries an outline tree. -/
def olDocs : List Document := [outlinesDoc]

/-- The pages map produced by processing `olDocs`. -/
def olPages : ObjMap :=
  match process_documents olDocs with
  | .ok (dp, _) => dp
  | .error _ => []

/-- The object map produced by processing `olDocs`. -/
def olObjs : ObjMap :=
  match process_documents olDocs with
  | .ok (_, es) => es
  | .error _ => []

/-- The first Catalog entry of `olObjs`. -/
def olC0 : ObjectId × Object :=
  (olObjs.find? (fun p => typeTag p.2 == "Catalog")).getD ((0, 0), Object.null)

/-- The last Pages-dictionary entry of `olObjs`. -/
def olE0 : ObjectId × Object :=
  ((pagesDictEntries olObjs).getLast? ).getD ((0, 0), Object.null)

/-- The dictionary of `olC0`. -/
def olCatDict : Dict := (as_dict olC0.2).getD []

/-- The merged output of `[cexOrderDoc]`. -/
def cexOut : Document :=
  match merge_pdfs_from [cexOrderDoc] with
  | .ok out => out
  | .error _ => Document.with_version "1.5"

/-- The merged output of `[streamCatalogDoc]`. -/
def streamOut : Document :=
  match merge_pdfs_from [streamCatalogDoc] with
  | .ok out => out
  | .error _ => Document.with_version "1.5"

/-! ### Facts about the identifier order -/

theorem idLt_irrefl (a : ObjectId) : idLt a a = false := by
  simp [idLt]

theorem idLt_trans {a b c : ObjectId} (h1 : idLt a b = true) (h2 : idLt b c = true) :
    idLt a c = true := by
  simp only [idLt, Bool.or_eq_true, Bool.and_eq_true, decide_eq_true_eq] at h1 h2 ⊢
  omega

theorem idLt_asymm {a b : ObjectId} (h : idLt a b = true) : idLt b a = false := by
  simp only [idLt, Bool.or_eq_true, Bool.and_eq_true, decide_eq_true_eq,
    Bool.or_eq_false_iff, Bool.and_eq_false_iff, decide_eq_false_iff_not] at h ⊢
  omega

theorem ne_of_idLt {a b : ObjectId} (h : idLt a b = true) : a ≠ b := by
  simp only [idLt, Bool.or_eq_true, Bool.and_eq_true, decide_eq_true_eq] at h
  rintro rfl
  omega

theorem idLt_total {a b : ObjectId} (h : a ≠ b) : idLt a b = true ∨ idLt b a = true := by
  obtain ⟨a1, a2⟩ := a
  obtain ⟨b1, b2⟩ := b
  simp only [ne_eq, Prod.mk.injEq, not_and] at h
  simp only [idLt, Bool.or_eq_true, Bool.and_eq_true, decide_eq_true_eq]
  by_cases h1 : a1 = b1
  · subst h1
    have := h rfl
    omega
  · omega

/-! ### Dictionary lemmas -/

theorem dictGet_eq_none_of_not_mem {d : Dict} {k : String} (h : k ∉ dictKeys d) :
    dictGet d k = none := by
  induction d with
  | nil => rfl
  | cons p rest ih =>
    obtain ⟨k2, v⟩ := p
    simp only [dictKeys, List.map_cons, List.mem_cons, not_or] at h
    simp only [dictGet]
    rw [if_neg (fun hkk => h.1 hkk.symm)]
    exact ih (by simpa [dictKeys] using h.2)

theorem mem_dictKeys_of_dictGet {d : Dict} {k : String} {v : Object}
    (h : dictGet d k = some v) : k ∈ dictKeys d := by
  induction d with
  | nil => simp [dictGet] at h
  | cons p rest ih =>
    obtain ⟨k2, v2⟩ := p
    simp only [dictGet] at h
    by_cases hk : k2 = k
    · simp [dictKeys, hk]
    · rw [if_neg hk] at h
      simp only [dictKeys, List.map_cons, List.mem_cons]
      exact Or.inr (ih h)

theorem dictGet_dictSet (d : Dict) (k : String) (v : Object) (k2 : String) :
    dictGet (dictSet d k v) k2 = if k = k2 then some v else dictGet d k2 := by
  induction d with
  | nil =>
    by_cases h : k = k2 <;> simp [dictSet, dictGet, h]
  | cons p rest ih =>
    obtain ⟨ka, va⟩ := p
    by_cases hka : ka = k
    · subst hka
      have hstep : dictSet ((ka, va) :: rest) ka v = (ka, v) :: rest := by
        simp [dictSet]
      rw [hstep]
      by_cases hk2 : ka = k2 <;> simp [dictGet, hk2]
    · have hstep : dictSet ((ka, va) :: rest) k v = (ka, va) :: dictSet rest k v := by
        simp [dictSet, hka]
      rw [hstep]
      by_cases hk2 : ka = k2
      · subst hk2
        have hk : ¬ k = ka := fun h => hka h.symm
        simp [dictGet, hk]
      · simp only [dictGet, if_neg hk2]
        exact ih

theorem dictGet_dictRemove (d : Dict) (k k2 : String) :
    dictGet (dictRemove d k) k2 = if k2 = k then none else dictGet d k2 := by
  induction d with
  | nil => simp [dictRemove, dictGet]
  | cons p rest ih =>
    obtain ⟨ka, va⟩ := p
    by_cases hka : ka = k
    · subst hka
      have hstep : dictRemove ((ka, va) :: rest) ka = dictRemove rest ka := by
        simp [dictRemove]
      rw [hstep, ih]
      by_cases hk2 : k2 = ka
      · simp [hk2]
      · have hka2 : ¬ ka = k2 := fun h => hk2 h.symm
        simp [dictGet, hk2, hka2]
    · have hstep : dictRemove ((ka, va) :: rest) k = (ka, va) :: dictRemove rest k := by
        simp [dictRemove, hka]
      rw [hstep]
      by_cases hk2 : ka = k2
      · subst hk2
        have hk : ¬ ka = k := hka
        simp [dictGet, fun h => hka h, hk]
      · simp only [dictGet, if_neg hk2]
        exact ih

theorem dictKeys_dictSet (d : Dict) (k : String) (v : Object) :
    dictKeys (dictSet d k v) = if k ∈ dictKeys d then dictKeys d else dictKeys d ++ [k] := by
  induction d with
  | nil => simp [dictSet, dictKeys]
  | cons p rest ih =>
    obtain ⟨ka, va⟩ := p
    by_cases hka : ka = k
    · subst hka
      simp [dictSet, dictKeys]
    · have hstep : dictSet ((ka, va) :: rest) k v = (ka, va) :: dictSet rest k v := by
        simp [dictSet, hka]
      have hkeys : dictKeys ((ka, va) :: dictSet rest k v) = ka :: dictKeys (dictSet rest k v) := rfl
      have hkeys2 : dictKeys ((ka, va) :: rest) = ka :: dictKeys rest := rfl
      rw [hstep, hkeys, ih, hkeys2]
      by_cases hk : k ∈ dictKeys rest
      · rw [if_pos hk, if_pos (List.mem_cons_of_mem _ hk)]
      · have hnot : k ∉ ka :: dictKeys rest := by
          intro hmem
          rcases List.mem_cons.mp hmem with h | h
          · exact hka h.symm
          · exact hk h
        rw [if_neg hk, if_neg hnot]
        rfl

theorem nodup_dictKeys_dictSet {d : Dict} (h : (dictKeys d).Nodup) (k : String) (v : Object) :
    (dictKeys (dictSet d k v)).Nodup := by
  rw [dictKeys_dictSet]
  split
  · exact h
  · next hk => simpa [List.nodup_append] using ⟨h, hk⟩

theorem nodup_dictKeys_dictExtend {other : Dict} :
    ∀ {d : Dict}, (dictKeys d).Nodup → (dictKeys (dictExtend d other)).Nodup := by
  induction other with
  | nil => intro d h; exact h
  | cons p rest ih =>
    intro d h
    exact ih (nodup_dictKeys_dictSet h p.1 p.2)

theorem dictGet_dictExtend (d : Dict) {other : Dict} (k : String)
    (h : (dictKeys other).Nodup) :
    dictGet (dictExtend d other) k =
      match dictGet other k with
      | some v => some v
      | none => dictGet d k := by
  induction other generalizing d with
  | nil => simp [dictExtend, dictGet]
  | cons p rest ih =>
    obtain ⟨k1, v1⟩ := p
    simp only [dictKeys, List.map_cons, List.nodup_cons] at h
    obtain ⟨hk1, hrest⟩ := h
    have hstep : dictExtend d ((k1, v1) :: rest) = dictExtend (dictSet d k1 v1) rest := rfl
    rw [hstep, ih _ hrest]
    by_cases hk : k1 = k
    · subst hk
      have hnone : dictGet rest k1 = none :=
        dictGet_eq_none_of_not_mem (by simpa [dictKeys] using hk1)
      have hhead : dictGet ((k1, v1) :: rest) k1 = some v1 := by simp [dictGet]
      rw [hnone, hhead]
      show dictGet (dictSet d k1 v1) k1 = some v1
      rw [dictGet_dictSet]
      simp
    · have hhead : dictGet ((k1, v1) :: rest) k = dictGet rest k := by simp [dictGet, hk]
      rw [hhead]
      cases hrk : dictGet rest k with
      | none =>
        show dictGet (dictSet d k1 v1) k = dictGet d k
        rw [dictGet_dictSet, if_neg hk]
      | some w => rfl

/-! ### Ordered-map lemmas -/

theorem mapGet_btInsert (m : ObjMap) (k : ObjectId) (v : Object) (k2 : ObjectId) :
    mapGet (btInsert m k v) k2 = if k = k2 then some v else mapGet m k2 := by
  induction m with
  | nil =>
    by_cases h : k = k2 <;> simp [btInsert, mapGet, h]
  | cons p rest ih =>
    obtain ⟨ka, va⟩ := p
    by_cases h1 : k = ka
    · subst h1
      have hstep : btInsert ((k, va) :: rest) k v = (k, v) :: rest := by
        simp [btInsert]
      rw [hstep]
      by_cases h2 : k = k2 <;> simp [mapGet, h2]
    · by_cases h3 : idLt k ka = true
      · have hstep : btInsert ((ka, va) :: rest) k v = (k, v) :: (ka, va) :: rest := by
          simp [btInsert, h1, h3]
        rw [hstep]
        by_cases h2 : k = k2 <;> simp [mapGet, h2]
      · have hstep : btInsert ((ka, va) :: rest) k v = (ka, va) :: btInsert rest k v := by
          simp [btInsert, h1, h3]
        rw [hstep]
        by_cases h2 : ka = k2
        · subst h2
          have hk : ¬ k = ka := h1
          simp [mapGet, hk]
        · simp only [mapGet, if_neg h2]
          exact ih

theorem mem_keys_btInsert {m : ObjMap} {k : ObjectId} {v : Object} {a : ObjectId}
    (h : a ∈ keys (btInsert m k v)) : a = k ∨ a ∈ keys m := by
  induction m with
  | nil => simpa [btInsert, keys] using h
  | cons p rest ih =>
    obtain ⟨ka, va⟩ := p
    by_cases h1 : k = ka
    · subst h1
      rw [show btInsert ((k, va) :: rest) k v = (k, v) :: rest by simp [btInsert]] at h
      simpa [keys] using h
    · by_cases h3 : idLt k ka = true
      · rw [show btInsert ((ka, va) :: rest) k v = (k, v) :: (ka, va) :: rest by
          simp [btInsert, h1, h3]] at h
        simp only [keys, List.map_cons, List.mem_cons] at h ⊢
        tauto
      · rw [show btInsert ((ka, va) :: rest) k v = (ka, va) :: btInsert rest k v by
          simp [btInsert, h1, h3]] at h
        simp only [keys, List.map_cons, List.mem_cons] at h ⊢
        rcases h with h | h
        · tauto
        · rcases ih h with h2 | h2 <;> tauto

theorem sorted_btInsert {m : ObjMap} (h : SortedKeys m) (k : ObjectId) (v : Object) :
    SortedKeys (btInsert m k v) := by
  induction m with
  | nil => simp [btInsert, SortedKeys, keys]
  | cons p rest ih =>
    obtain ⟨ka, va⟩ := p
    simp only [SortedKeys, keys, List.map_cons, List.pairwise_cons] at h
    obtain ⟨hka, hrest⟩ := h
    by_cases h1 : k = ka
    · subst h1
      rw [show btInsert ((k, va) :: rest) k v = (k, v) :: rest by simp [btInsert]]
      simp only [SortedKeys, keys, List.map_cons, List.pairwise_cons]
      exact ⟨hka, hrest⟩
    · by_cases h3 : idLt k ka = true
      · rw [show btInsert ((ka, va) :: rest) k v = (k, v) :: (ka, va) :: rest by
          simp [btInsert, h1, h3]]
        simp only [SortedKeys, keys, List.map_cons, List.pairwise_cons]
        refine ⟨?_, hka, hrest⟩
        intro a ha
        rcases List.mem_cons.mp ha with h4 | h4
        · exact h4 ▸ h3
        · exact idLt_trans h3 (hka a h4)
      · rw [show btInsert ((ka, va) :: rest) k v = (ka, va) :: btInsert rest k v by
          simp [btInsert, h1, h3]]
        simp only [SortedKeys, keys, List.map_cons, List.pairwise_cons]
        refine ⟨?_, ih hrest⟩
        intro a ha
        rcases mem_keys_btInsert (by simpa [keys] using ha) with h4 | h4
        · subst h4
          rcases idLt_total h1 with h5 | h5
          · exact absurd h5 (by simp [h3])
          · exact h5
        · exact hka a h4

theorem mapGet_eq_some_of_mem {m : ObjMap} (hs : SortedKeys m) {k : ObjectId} {v : Object}
    (h : (k, v) ∈ m) : mapGet m k = some v := by
  induction m with
  | nil => simp at h
  | cons p rest ih =>
    obtain ⟨ka, va⟩ := p
    simp only [SortedKeys, keys, List.map_cons, List.pairwise_cons] at hs
    obtain ⟨hka, hrest⟩ := hs
    rcases List.mem_cons.mp h with h1 | h1
    · rw [Prod.ext_iff] at h1
      obtain ⟨h2, h3⟩ := h1
      simp only at h2 h3
      subst h2
      subst h3
      simp [mapGet]
    · by_cases h2 : ka = k
      · subst h2
        have : idLt ka ka = true := hka ka (by
          simpa [keys] using List.mem_map_of_mem Prod.fst h1)
        rw [idLt_irrefl] at this
        cases this
      · simp only [mapGet, if_neg h2]
        exact ih hrest h1

theorem mem_of_mapGet_eq_some {m : ObjMap} {k : ObjectId} {v : Object}
    (h : mapGet m k = some v) : (k, v) ∈ m := by
  induction m with
  | nil => simp [mapGet] at h
  | cons p rest ih =>
    obtain ⟨ka, va⟩ := p
    simp only [mapGet] at h
    by_cases h2 : ka = k
    · subst h2
      rw [if_pos rfl] at h
      cases h
      exact List.mem_cons_self _ _
    · rw [if_neg h2] at h
      exact List.mem_cons_of_mem _ (ih h)

theorem mapGet_eq_none_iff {m : ObjMap} {k : ObjectId} :
    mapGet m k = none ↔ k ∉ keys m := by
  induction m with
  | nil => simp [mapGet, keys]
  | cons p rest ih =>
    obtain ⟨ka, va⟩ := p
    simp only [mapGet, keys, List.map_cons, List.mem_cons]
    by_cases h2 : ka = k
    · simp [h2]
    · rw [if_neg h2]
      simp only [keys] at ih
      rw [ih]
      constructor
      · intro h3
        rintro (h4 | h4)
        · exact h2 h4.symm
        · exact h3 h4
      · intro h3 h4
        exact h3 (Or.inr h4)

theorem sorted_btExtend {other : ObjMap} :
    ∀ {m : ObjMap}, SortedKeys m → SortedKeys (btExtend m other) := by
  induction other with
  | nil => intro m h; exact h
  | cons p rest ih =>
    intro m h
    exact ih (sorted_btInsert h p.1 p.2)

theorem btInsert_eq_append {m : ObjMap} {k : ObjectId} (v : Object)
    (h : ∀ a ∈ keys m, idLt a k = true) : btInsert m k v = m ++ [(k, v)] := by
  induction m with
  | nil => simp [btInsert]
  | cons p rest ih =>
    obtain ⟨ka, va⟩ := p
    have hak : idLt ka k = true := h ka (by simp [keys])
    have h1 : ¬ k = ka := fun h2 => ne_of_idLt hak h2.symm
    have h3 : ¬ idLt k ka = true := by simp [idLt_asymm hak]
    rw [show btInsert ((ka, va) :: rest) k v = (ka, va) :: btInsert rest k v by
      simp [btInsert, h1, h3]]
    rw [ih (fun a ha => h a (by simp [keys] at ha ⊢; exact Or.inr ha))]
    rfl

theorem btExtend_eq_append {other : ObjMap} (hs : SortedKeys other) :
    ∀ {m : ObjMap}, (∀ a ∈ keys m, ∀ b ∈ keys other, idLt a b = true) →
      btExtend m other = m ++ other := by
  induction other with
  | nil => intro m _; simp [btExtend]
  | cons p rest ih =>
    intro m h
    obtain ⟨ka, va⟩ := p
    simp only [SortedKeys, keys, List.map_cons, List.pairwise_cons] at hs
    obtain ⟨hka, hrest⟩ := hs
    have hstep : btExtend m ((ka, va) :: rest) = btExtend (btInsert m ka va) rest := rfl
    rw [hstep]
    rw [show btInsert m ka va = m ++ [(ka, va)] from
      btInsert_eq_append va (fun a ha => h a ha ka (by simp [keys]))]
    rw [ih hrest (fun a ha b hb => ?_)]
    · simp
    · simp only [keys, List.map_append, List.mem_append] at ha
      rcases ha with ha | ha
      · exact h a ha b (by simp [keys] at hb ⊢; exact Or.inr hb)
      · simp [keys] at ha
        exact ha ▸ hka b hb

theorem btExtend_nil_sorted {s : ObjMap} (hs : SortedKeys s) : btExtend [] s = s := by
  rw [btExtend_eq_append hs (by simp [keys])]
  rfl

/-! ### Counting lemmas -/

theorem countV_btInsert_fresh {m : ObjMap} {k : ObjectId} (hf : mapGet m k = none)
    (v : Object) (q : Object → Bool) :
    countV (btInsert m k v) q = countV m q + (if q v then 1 else 0) := by
  induction m with
  | nil => simp [countV, btInsert, List.countP_cons, List.countP_nil]
  | cons p rest ih =>
    obtain ⟨ka, va⟩ := p
    simp only [mapGet] at hf
    by_cases h2 : ka = k
    · rw [if_pos h2] at hf
      cases hf
    · rw [if_neg h2] at hf
      have h2s : ¬ k = ka := fun h => h2 h.symm
      by_cases h3 : idLt k ka = true
      · rw [show btInsert ((ka, va) :: rest) k v = (k, v) :: (ka, va) :: rest by
          simp [btInsert, h2s, h3]]
        simp only [countV, List.countP_cons]
      · rw [show btInsert ((ka, va) :: rest) k v = (ka, va) :: btInsert rest k v by
          simp [btInsert, h2s, h3]]
        simp only [countV, List.countP_cons] at *
        rw [ih hf]
        omega

theorem countV_btExtend_fresh {other : ObjMap} (hnd : (keys other).Nodup) :
    ∀ {m : ObjMap}, (∀ p ∈ other, mapGet m p.1 = none) →
      ∀ q, countV (btExtend m other) q = countV m q + countV other q := by
  induction other with
  | nil => intro m _ q; simp [btExtend, countV]
  | cons p rest ih =>
    intro m hfr q
    obtain ⟨ka, va⟩ := p
    simp only [keys, List.map_cons, List.nodup_cons] at hnd
    obtain ⟨hka, hrest⟩ := hnd
    have hstep : btExtend m ((ka, va) :: rest) = btExtend (btInsert m ka va) rest := rfl
    rw [hstep]
    have hfr2 : ∀ p ∈ rest, mapGet (btInsert m ka va) p.1 = none := by
      intro b hb
      rw [mapGet_btInsert]
      have hne : ¬ ka = b.1 := by
        intro h
        rw [h] at hka
        exact hka (List.mem_map_of_mem Prod.fst hb)
      rw [if_neg hne]
      exact hfr b (List.mem_cons_of_mem _ hb)
    rw [ih hrest hfr2 q]
    rw [countV_btInsert_fresh (hfr (ka, va) (List.mem_cons_self _ _)) va q]
    simp only [countV, List.countP_cons]
    omega

/-! ### Renaming lemmas -/

theorem dictGet_renameDict (f : ObjectId → ObjectId) (d : Dict) (k : String) :
    dictGet (renameDict f d) k = (dictGet d k).map (renameObject f) := by
  induction d with
  | nil => simp [renameDict, dictGet]
  | cons p rest ih =>
    obtain ⟨k2, v⟩ := p
    simp only [renameDict, dictGet]
    by_cases h : k2 = k
    · simp [h]
    · rw [if_neg h, if_neg h, ih]

theorem dictKeys_renameDict (f : ObjectId → ObjectId) (d : Dict) :
    dictKeys (renameDict f d) = dictKeys d := by
  induction d with
  | nil => rfl
  | cons p rest ih =>
    obtain ⟨k2, v⟩ := p
    simp only [renameDict, dictKeys, List.map_cons] at *
    rw [ih]

theorem type_name_renameObject (f : ObjectId → ObjectId) (o : Object) :
    type_name (renameObject f o) = type_name o := by
  cases o with
  | dictionary d =>
    simp only [renameObject, type_name, dictGet_renameDict]
    cases hx : dictGet d "Type" with
    | none => rfl
    | some v => cases v <;> rfl
  | stream d =>
    simp only [renameObject, type_name, dictGet_renameDict]
    cases hx : dictGet d "Type" with
    | none => rfl
    | some v => cases v <;> rfl
  | null => rfl
  | boolean b => rfl
  | integer n => rfl
  | name s => rfl
  | strLit s => rfl
  | array xs => rfl
  | reference i => rfl

theorem typeTag_renameObject (f : ObjectId → ObjectId) (o : Object) :
    typeTag (renameObject f o) = typeTag o := by
  simp [typeTag, type_name_renameObject]

theorem as_dict_renameObject (f : ObjectId → ObjectId) (o : Object) :
    as_dict (renameObject f o) = (as_dict o).map (renameDict f) := by
  cases o <;> rfl

/-! ### Renumbering lemmas -/

theorem length_renumberEntries (f : ObjectId → ObjectId) (start : Nat) (m : ObjMap) :
    (renumberEntries f start m).length = m.length := by
  induction m generalizing start with
  | nil => rfl
  | cons p rest ih =>
    obtain ⟨k, v⟩ := p
    simp only [renumberEntries, List.length_cons, ih]

theorem num_bounds_renumberEntries (f : ObjectId → ObjectId) :
    ∀ (m : ObjMap) (start : Nat), ∀ p ∈ renumberEntries f start m,
      start ≤ p.1.1 ∧ p.1.1 < start + m.length := by
  intro m
  induction m with
  | nil => intro start p hp; simp [renumberEntries] at hp
  | cons q rest ih =>
    intro start p hp
    obtain ⟨k, v⟩ := q
    simp only [renumberEntries, List.mem_cons] at hp
    rcases hp with hp | hp
    · subst hp
      simp
    · have := ih (start + 1) p hp
      simp only [List.length_cons]
      omega

theorem sorted_renumberEntries (f : ObjectId → ObjectId) :
    ∀ (m : ObjMap) (start : Nat), SortedKeys (renumberEntries f start m) := by
  intro m
  induction m with
  | nil => intro start; simp [renumberEntries, SortedKeys, keys]
  | cons q rest ih =>
    intro start
    obtain ⟨k, v⟩ := q
    simp only [renumberEntries, SortedKeys, keys, List.map_cons, List.pairwise_cons]
    constructor
    · intro a ha
      obtain ⟨p, hp, rfl⟩ := List.mem_map.mp (show a ∈ List.map Prod.fst _ from ha)
      have hb := num_bounds_renumberEntries f rest (start + 1) p hp
      simp only [idLt, Bool.or_eq_true, Bool.and_eq_true, decide_eq_true_eq]
      left
      show start < p.1.1
      omega
    · exact ih (start + 1)

theorem mem_renumberEntries {f : ObjectId → ObjectId} :
    ∀ {m : ObjMap} {start : Nat} {p}, p ∈ renumberEntries f start m →
      ∃ q ∈ m, p.2 = renameObject f q.2 := by
  intro m
  induction m with
  | nil => intro start p hp; simp [renumberEntries] at hp
  | cons q rest ih =>
    intro start p hp
    obtain ⟨k, v⟩ := q
    simp only [renumberEntries, List.mem_cons] at hp
    rcases hp with hp | hp
    · exact ⟨(k, v), List.mem_cons_self _ _, by simp [hp]⟩
    · obtain ⟨q2, hq2, hval⟩ := ih hp
      exact ⟨q2, List.mem_cons_of_mem _ hq2, hval⟩

theorem replaceMap_spec :
    ∀ (ks : List ObjectId) (start : Nat) {k : ObjectId}, k ∈ ks →
      ∃ j, ∃ hj : j < ks.length, ks.get ⟨j, hj⟩ = k ∧
        replaceMap ks start k = (start + j, k.2) := by
  intro ks
  induction ks with
  | nil => intro start k hk; simp at hk
  | cons a rest ih =>
    intro start k hk
    by_cases h : a = k
    · exact ⟨0, by simp, by simp [h], by simp [replaceMap, h]⟩
    · have hk2 : k ∈ rest := by
        rcases List.mem_cons.mp hk with h2 | h2
        · exact absurd h2.symm h
        · exact h2
      obtain ⟨j, hj, hget, hrm⟩ := ih (start + 1) hk2
      refine ⟨j + 1, by simpa using Nat.succ_lt_succ hj, by simpa using hget, ?_⟩
      rw [show replaceMap (a :: rest) start k = replaceMap rest (start + 1) k by
        simp [replaceMap, h]]
      rw [hrm]
      rw [Prod.ext_iff]
      refine ⟨?_, rfl⟩
      show start + 1 + j = start + (j + 1)
      omega

theorem replaceMap_num_bounds {ks : List ObjectId} {k : ObjectId} (h : k ∈ ks) (start : Nat) :
    start ≤ (replaceMap ks start k).1 ∧ (replaceMap ks start k).1 < start + ks.length := by
  obtain ⟨j, hj, _, hrm⟩ := replaceMap_spec ks start h
  rw [hrm]
  simp only []
  omega

theorem replaceMap_mono {ks : List ObjectId}
    (hs : List.Pairwise (fun a b => idLt a b = true) ks) {k1 k2 : ObjectId}
    (h1 : k1 ∈ ks) (h2 : k2 ∈ ks) (hlt : idLt k1 k2 = true) (start : Nat) :
    idLt (replaceMap ks start k1) (replaceMap ks start k2) = true := by
  obtain ⟨j1, hj1, hget1, hrm1⟩ := replaceMap_spec ks start h1
  obtain ⟨j2, hj2, hget2, hrm2⟩ := replaceMap_spec ks start h2
  have hne : k1 ≠ k2 := ne_of_idLt hlt
  have hjj : j1 < j2 := by
    rcases Nat.lt_trichotomy j1 j2 with h | h | h
    · exact h
    · exfalso
      apply hne
      rw [← hget1, ← hget2]
      congr 1
      exact Fin.ext h
    · exfalso
      have := List.pairwise_iff_get.mp hs ⟨j2, hj2⟩ ⟨j1, hj1⟩ h
      rw [hget1, hget2] at this
      rw [idLt_asymm this] at hlt
      cases hlt
  rw [hrm1, hrm2]
  simp only [idLt, Bool.or_eq_true, Bool.and_eq_true, decide_eq_true_eq]
  left
  show start + j1 < start + j2
  omega

theorem mapGet_renumberEntries_get (f : ObjectId → ObjectId) :
    ∀ (m : ObjMap) (start j : Nat) (hj : j < m.length),
      mapGet (renumberEntries f start m) (start + j, (m.get ⟨j, hj⟩).1.2) =
        some (renameObject f (m.get ⟨j, hj⟩).2) := by
  intro m
  induction m with
  | nil => intro start j hj; simp at hj
  | cons p rest ih =>
    intro start j hj
    obtain ⟨k, v⟩ := p
    cases j with
    | zero =>
      simp [renumberEntries, mapGet]
    | succ j2 =>
      have hj2 : j2 < rest.length := Nat.lt_of_succ_lt_succ hj
      have hne : ¬ ((start, k.2) : ObjectId) =
          (start + (j2 + 1), ((rest.get ⟨j2, hj2⟩).1.2)) := by
        intro hcontra
        have := congrArg Prod.fst hcontra
        simp only [] at this
        omega
      show mapGet (((start, k.2), renameObject f v) :: renumberEntries f (start + 1) rest)
          (start + (j2 + 1), (rest.get ⟨j2, hj2⟩).1.2) =
        some (renameObject f (rest.get ⟨j2, hj2⟩).2)
      simp only [mapGet, if_neg hne]
      rw [show start + (j2 + 1) = start + 1 + j2 by omega]
      exact ih (start + 1) j2 hj2

theorem sortedKeys_nodup {m : ObjMap} (hs : SortedKeys m) : (keys m).Nodup :=
  hs.imp (fun h => ne_of_idLt h)

theorem mapGet_renumber_transfer {m : ObjMap} (hs : SortedKeys m) {k : ObjectId} {v : Object}
    (h : mapGet m k = some v) (start : Nat) :
    mapGet (renumberEntries (replaceMap (keys m) start) start m)
      (replaceMap (keys m) start k) = some (renameObject (replaceMap (keys m) start) v) := by
  have hmemk : k ∈ keys m := List.mem_map_of_mem Prod.fst (mem_of_mapGet_eq_some h)
  obtain ⟨j, hj, hget, hrm⟩ := replaceMap_spec (keys m) start hmemk
  have hjm : j < m.length := by simpa [keys] using hj
  have hkey : (m.get ⟨j, hjm⟩).1 = k := by
    have hg : (keys m).get ⟨j, hj⟩ = (m.get ⟨j, hjm⟩).1 := by
      simp [keys, List.get_map]
    rw [← hg, hget]
  have hval : (m.get ⟨j, hjm⟩).2 = v := by
    have hmem2 : ((m.get ⟨j, hjm⟩).1, (m.get ⟨j, hjm⟩).2) ∈ m := by
      simpa using List.get_mem m j hjm
    have hsome := mapGet_eq_some_of_mem hs hmem2
    rw [hkey, h] at hsome
    cases hsome
    rfl
  have h2 := mapGet_renumberEntries_get (replaceMap (keys m) start) m start j hjm
  have hkey2 : (m.get ⟨j, hjm⟩).1.2 = k.2 := congrArg Prod.snd hkey
  rw [hkey2, hval] at h2
  rw [hrm]
  exact h2

theorem mem_btInsert {m : ObjMap} {k : ObjectId} {v : Object} {p : ObjectId × Object}
    (h : p ∈ btInsert m k v) : p = (k, v) ∨ p ∈ m := by
  induction m with
  | nil => simpa [btInsert] using h
  | cons q rest ih =>
    obtain ⟨ka, va⟩ := q
    by_cases h1 : k = ka
    · subst h1
      rw [show btInsert ((k, va) :: rest) k v = (k, v) :: rest by simp [btInsert]] at h
      rcases List.mem_cons.mp h with h2 | h2
      · tauto
      · exact Or.inr (List.mem_cons_of_mem _ h2)
    · by_cases h3 : idLt k ka = true
      · rw [show btInsert ((ka, va) :: rest) k v = (k, v) :: (ka, va) :: rest by
          simp [btInsert, h1, h3]] at h
        rcases List.mem_cons.mp h with h2 | h2
        · tauto
        · tauto
      · rw [show btInsert ((ka, va) :: rest) k v = (ka, va) :: btInsert rest k v by
          simp [btInsert, h1, h3]] at h
        rcases List.mem_cons.mp h with h2 | h2
        · exact Or.inr (h2 ▸ List.mem_cons_self _ _)
        · rcases ih h2 with h4 | h4
          · tauto
          · exact Or.inr (List.mem_cons_of_mem _ h4)

theorem mapGet_append_left {m1 m2 : ObjMap} {k : ObjectId} {v : Object}
    (h : mapGet m1 k = some v) : mapGet (m1 ++ m2) k = some v := by
  induction m1 with
  | nil => simp [mapGet] at h
  | cons p rest ih =>
    obtain ⟨ka, va⟩ := p
    simp only [mapGet, List.cons_append] at *
    by_cases h2 : ka = k
    · rwa [if_pos h2] at *
    · rw [if_neg h2] at *
      exact ih h

theorem mapGet_append_right {m1 m2 : ObjMap} {k : ObjectId} (h : k ∉ keys m1) :
    mapGet (m1 ++ m2) k = mapGet m2 k := by
  induction m1 with
  | nil => rfl
  | cons p rest ih =>
    obtain ⟨ka, va⟩ := p
    simp only [keys, List.map_cons, List.mem_cons, not_or] at h
    simp only [List.cons_append, mapGet]
    rw [if_neg (fun h2 => h.1 h2.symm)]
    exact ih (by simpa [keys] using h.2)

/-! ### Page-extraction lemmas -/

theorem extractGo_ok (objects : ObjMap) :
    ∀ (ids : List ObjectId) (acc : ObjMap),
      (∀ id ∈ ids, id ∈ keys objects) →
      SortedKeys acc →
      (∀ p ∈ acc, mapGet objects p.1 = some p.2) →
      ∃ pg, extractGo objects ids acc = .ok pg ∧ SortedKeys pg ∧
        (∀ p ∈ pg, mapGet objects p.1 = some p.2) ∧
        (∀ p ∈ pg, p.1 ∈ ids ∨ p ∈ acc) := by
  intro ids
  induction ids with
  | nil =>
    intro acc _ hs hv
    exact ⟨acc, rfl, hs, hv, fun p hp => Or.inr hp⟩
  | cons id rest ih =>
    intro acc hids hs hv
    have hid : id ∈ keys objects := hids id (List.mem_cons_self _ _)
    obtain ⟨o, ho⟩ : ∃ o, mapGet objects id = some o := by
      cases hx : mapGet objects id with
      | none => exact absurd (mapGet_eq_none_iff.mp hx) (by simpa using hid)
      | some o => exact ⟨o, rfl⟩
    have hstep : extractGo objects (id :: rest) acc =
        extractGo objects rest (btInsert acc id o) := by
      simp [extractGo, ho]
    rw [hstep]
    obtain ⟨pg, hpg, hsort, hval, hmem⟩ :=
      ih (btInsert acc id o) (fun i hi => hids i (List.mem_cons_of_mem _ hi))
        (sorted_btInsert hs id o)
        (fun p hp => by
          rcases mem_btInsert hp with h2 | h2
          · rw [h2]; exact ho
          · exact hv p h2)
    refine ⟨pg, hpg, hsort, hval, fun p hp => ?_⟩
    rcases hmem p hp with h2 | h2
    · exact Or.inl (List.mem_cons_of_mem _ h2)
    · rcases mem_btInsert h2 with h3 | h3
      · exact Or.inl (by rw [h3]; exact List.mem_cons_self _ _)
      · exact Or.inr h3

theorem extractGo_ascending (objects : ObjMap) :
    ∀ (ids : List ObjectId) (acc : ObjMap),
      List.Pairwise (fun a b => idLt a b = true) ids →
      (∀ id ∈ ids, id ∈ keys objects) →
      (∀ a ∈ keys acc, ∀ b ∈ ids, idLt a b = true) →
      extractGo objects ids acc =
        .ok (acc ++ ids.map (fun id => (id, (mapGet objects id).getD Object.null))) := by
  intro ids
  induction ids with
  | nil => intro acc _ _ _; simp [extractGo]
  | cons id rest ih =>
    intro acc hasc hids hlt
    have hid : id ∈ keys objects := hids id (List.mem_cons_self _ _)
    obtain ⟨o, ho⟩ : ∃ o, mapGet objects id = some o := by
      cases hx : mapGet objects id with
      | none => exact absurd (mapGet_eq_none_iff.mp hx) (by simpa using hid)
      | some o => exact ⟨o, rfl⟩
    have hstep : extractGo objects (id :: rest) acc =
        extractGo objects rest (btInsert acc id o) := by
      simp [extractGo, ho]
    rw [hstep]
    simp only [List.pairwise_cons] at hasc
    obtain ⟨hidlt, hrest⟩ := hasc
    rw [btInsert_eq_append o (fun a ha => hlt a ha id (List.mem_cons_self _ _))]
    rw [ih (acc ++ [(id, o)]) hrest (fun i hi => hids i (List.mem_cons_of_mem _ hi))
      (fun a ha b hb => ?_)]
    · rw [List.map_cons, ho]
      simp
    · simp only [keys, List.map_append, List.mem_append] at ha
      rcases ha with ha | ha
      · exact idLt_trans (hlt a ha id (List.mem_cons_self _ _)) (hidlt b hb)
      · simp only [keys, List.map_cons, List.map_nil, List.mem_singleton] at ha
        exact ha ▸ hidlt b hb

/-! ### Renumbering a whole document -/

theorem renumber_objects_with_objects (doc : Document) (c : Nat) :
    (renumber_objects_with doc c).objects =
      renumberEntries (replaceMap (keys doc.objects) c) c doc.objects := rfl

theorem renumber_objects_with_pageIds (doc : Document) (c : Nat) :
    (renumber_objects_with doc c).pageIds =
      doc.pageIds.map (replaceMap (keys doc.objects) c) := rfl

theorem renumber_objects_with_maxId (doc : Document) (c : Nat) :
    (renumber_objects_with doc c).maxId = c + doc.objects.length - 1 := rfl

theorem idLt_of_num_lt {a b : ObjectId} (h : a.1 < b.1) : idLt a b = true := by
  simp only [idLt, Bool.or_eq_true, Bool.and_eq_true, decide_eq_true_eq]
  omega

theorem mapGet_isSome_of_mem_keys {m : ObjMap} {k : ObjectId} (h : k ∈ keys m) :
    ∃ v, mapGet m k = some v := by
  cases hx : mapGet m k with
  | none => exact absurd (mapGet_eq_none_iff.mp hx) (by simpa using h)
  | some v => exact ⟨v, rfl⟩

theorem intOfObj_renameObject (f : ObjectId → ObjectId) (o : Object) (kn : String) :
    intOfObj (renameObject f o) kn = intOfObj o kn := by
  cases o with
  | dictionary d =>
    simp only [renameObject, intOfObj, dictGet_renameDict]
    cases hx : dictGet d kn with
    | none => rfl
    | some v => cases v <;> rfl
  | null => rfl
  | boolean b => rfl
  | integer n => rfl
  | name s => rfl
  | strLit s => rfl
  | array xs => rfl
  | stream d => rfl
  | reference i => rfl

theorem nodupDict_val_renameObject (f : ObjectId → ObjectId) {o : Object}
    (h : (dictKeys ((as_dict o).getD [])).Nodup) :
    (dictKeys ((as_dict (renameObject f o)).getD [])).Nodup := by
  cases o with
  | dictionary d =>
    simpa [renameObject, as_dict, dictKeys_renameDict] using h
  | null => simp [renameObject, as_dict, dictKeys]
  | boolean b => simp [renameObject, as_dict, dictKeys]
  | integer n => simp [renameObject, as_dict, dictKeys]
  | name s => simp [renameObject, as_dict, dictKeys]
  | strLit s => simp [renameObject, as_dict, dictKeys]
  | array xs => simp [renameObject, as_dict, dictKeys]
  | stream d => simp [renameObject, as_dict, dictKeys]
  | reference i => simp [renameObject, as_dict, dictKeys]

theorem startAtC_cons (c : Nat) (d : Document) (rest : List Document) (i : Nat) :
    startAtC c (d :: rest) (i + 1) = startAtC (c + d.objects.length) rest i := by
  simp only [startAtC, docSizes, List.map_cons, List.take_succ_cons, List.sum_cons]
  omega

theorem startAtC_zero (c : Nat) (docs : List Document) : startAtC c docs 0 = c := by
  simp [startAtC]

/-- One renumbering step of `process_documents`: the facts about the
renumbered document needed by the aggregation inductions. -/
theorem renumber_step_spec {d : Document} (hwf : DocWF d) (c : Nat) :
    SortedKeys (renumber_objects_with d c).objects ∧
    (∀ p ∈ (renumber_objects_with d c).objects,
      c ≤ p.1.1 ∧ p.1.1 < c + d.objects.length) ∧
    (renumber_objects_with d c).objects.length = d.objects.length ∧
    (∀ id2 ∈ (renumber_objects_with d c).pageIds,
      ∃ id ∈ d.pageIds, ∃ v, mapGet d.objects id = some v ∧
        id2 = replaceMap (keys d.objects) c id ∧
        mapGet (renumber_objects_with d c).objects id2 =
          some (renameObject (replaceMap (keys d.objects) c) v) ∧
        c ≤ id2.1 ∧ id2.1 < c + d.objects.length) := by
  obtain ⟨hsort, hids⟩ := hwf
  refine ⟨sorted_renumberEntries _ _ _, ?_, ?_, ?_⟩
  · intro p hp
    have := num_bounds_renumberEntries (replaceMap (keys d.objects) c) d.objects c p hp
    simpa using this
  · exact length_renumberEntries _ _ _
  · intro id2 hid2
    rw [renumber_objects_with_pageIds] at hid2
    obtain ⟨id, hid, rfl⟩ := List.mem_map.mp hid2
    obtain ⟨v, hv⟩ := mapGet_isSome_of_mem_keys (hids id hid)
    refine ⟨id, hid, v, hv, rfl, ?_, ?_⟩
    · rw [renumber_objects_with_objects]
      exact mapGet_renumber_transfer hsort hv c
    · have := replaceMap_num_bounds (hids id hid) c
      simpa [keys] using this

/-- Aggregation invariant of `process_documents`: the fold succeeds on
well-formed inputs, keeps both aggregates in ascending key order, keeps every
aggregated leaf present (with the same value) in the aggregated object table,
keeps every aggregated leaf a Page-tagged dictionary, and lays the renumbered
object tables out as consecutive blocks whose identifier numbers start at the
running counter and stay below its next value. -/
theorem processGo_spec :
    ∀ (docs : List Document) (c : Nat) (dpAcc esAcc : ObjMap),
      1 ≤ c →
      (∀ doc ∈ docs, DocWF doc) →
      (∀ doc ∈ docs, PageWF doc) →
      (∀ doc ∈ docs, NodupDicts doc.objects) →
      SortedKeys dpAcc → SortedKeys esAcc →
      (∀ p ∈ dpAcc, p.1.1 < c) → (∀ p ∈ esAcc, p.1.1 < c) →
      (∀ p ∈ dpAcc, mapGet esAcc p.1 = some p.2) →
      (∀ p ∈ dpAcc, typeTag p.2 = "Page" ∧ (as_dict p.2).isSome = true) →
      NodupDicts esAcc →
      ∃ dp es, processGo docs c dpAcc esAcc = .ok (dp, es) ∧
        SortedKeys dp ∧ SortedKeys es ∧
        (∀ p ∈ dp, mapGet es p.1 = some p.2) ∧
        (∀ p ∈ dp, typeTag p.2 = "Page" ∧ (as_dict p.2).isSome = true) ∧
        NodupDicts es ∧
        es.length = esAcc.length + (docSizes docs).sum ∧
        ∃ blocks : List ObjMap,
          es = esAcc ++ blocks.join ∧
          blocks.length = docs.length ∧
          ∀ i, ∀ hi : i < docs.length, ∀ hb : i < blocks.length,
            (blocks.get ⟨i, hb⟩).length = (docs.get ⟨i, hi⟩).objects.length ∧
            ∀ p ∈ blocks.get ⟨i, hb⟩,
              startAtC c docs i ≤ p.1.1 ∧ p.1.1 < startAtC c docs (i + 1) := by
  intro docs
  induction docs with
  | nil =>
    intro c dpAcc esAcc hc _ _ _ hsdp hses hbdp hbes hsub htag hnd
    refine ⟨dpAcc, esAcc, rfl, hsdp, hses, hsub, htag, hnd, by simp [docSizes],
      [], by simp, rfl, ?_⟩
    intro i hi
    simp at hi
  | cons d rest ih =>
    intro c dpAcc esAcc hc hwf hpw hnds hsdp hses hbdp hbes hsub htag hnd
    have hwfd : DocWF d := hwf d (List.mem_cons_self _ _)
    have hpwd : PageWF d := hpw d (List.mem_cons_self _ _)
    obtain ⟨hs2, hbounds2, hlen2, hpid2⟩ := renumber_step_spec hwfd c
    set d2 := renumber_objects_with d c with hd2
    have hidsin : ∀ id2 ∈ d2.pageIds, id2 ∈ keys d2.objects := by
      intro id2 h
      obtain ⟨id, _, v, _, _, hget, _, _⟩ := hpid2 id2 h
      exact List.mem_map_of_mem Prod.fst (mem_of_mapGet_eq_some hget)
    obtain ⟨pg, hpgeq, hpgsort, hpgval, hpgmem⟩ :=
      extractGo_ok d2.objects d2.pageIds [] hidsin (by simp [SortedKeys, keys]) (by simp)
    have hpg_bounds : ∀ p ∈ pg, c ≤ p.1.1 ∧ p.1.1 < c + d.objects.length := by
      intro p hp
      have h1 := hpgval p hp
      have h2 := hbounds2 (p.1, p.2) (mem_of_mapGet_eq_some h1)
      simpa using h2
    have hpg_tag : ∀ p ∈ pg, typeTag p.2 = "Page" ∧ (as_dict p.2).isSome = true := by
      intro p hp
      have hmem : p.1 ∈ d2.pageIds := by
        rcases hpgmem p hp with hmem | hmem
        · exact hmem
        · simp at hmem
      obtain ⟨id, hid, v, hv, _, hget, _, _⟩ := hpid2 p.1 hmem
      have h1 := hpgval p hp
      rw [hget] at h1
      injection h1 with h1
      obtain ⟨htg, hdc⟩ := hpwd id hid
      rw [tagAt, hv] at htg
      rw [isDictAt, hv] at hdc
      constructor
      · rw [← h1, typeTag_renameObject]
        exact htg
      · rw [← h1, as_dict_renameObject]
        simpa using hdc
    have hpg_ge : ∀ a ∈ keys dpAcc, ∀ b ∈ keys pg, idLt a b = true := by
      intro a ha b hb
      obtain ⟨p, hp, rfl⟩ := List.mem_map.mp ha
      obtain ⟨q, hq, rfl⟩ := List.mem_map.mp hb
      exact idLt_of_num_lt (lt_of_lt_of_le (hbdp p hp) (hpg_bounds q hq).1)
    have hes_ge : ∀ a ∈ keys esAcc, ∀ b ∈ keys d2.objects, idLt a b = true := by
      intro a ha b hb
      obtain ⟨p, hp, rfl⟩ := List.mem_map.mp ha
      obtain ⟨q, hq, rfl⟩ := List.mem_map.mp hb
      exact idLt_of_num_lt (lt_of_lt_of_le (hbes p hp) (hbounds2 q hq).1)
    have hdp2 : btExtend dpAcc pg = dpAcc ++ pg := btExtend_eq_append hpgsort hpg_ge
    have hes2 : btExtend esAcc d2.objects = esAcc ++ d2.objects :=
      btExtend_eq_append hs2 hes_ge
    have hmax : d2.maxId + 1 = c + d.objects.length := by
      have h1 := renumber_objects_with_maxId d c
      rw [← hd2] at h1
      omega
    have hstep : processGo (d :: rest) c dpAcc esAcc =
        processGo rest (d2.maxId + 1) (btExtend dpAcc pg) (btExtend esAcc d2.objects) := by
      simp only [processGo]
      rw [← hd2]
      rw [show extract_pages d2 = Except.ok pg from hpgeq]
    obtain ⟨dp, es, hrun, hdps, hess, hsub2, htag2, hnd2, hlen, blocks, hesq, hblen, hbfacts⟩ :=
      ih (c + d.objects.length) (dpAcc ++ pg) (esAcc ++ d2.objects)
        (by omega)
        (fun doc h => hwf doc (List.mem_cons_of_mem _ h))
        (fun doc h => hpw doc (List.mem_cons_of_mem _ h))
        (fun doc h => hnds doc (List.mem_cons_of_mem _ h))
        (by rw [← hdp2]; exact sorted_btExtend hsdp)
        (by rw [← hes2]; exact sorted_btExtend hses)
        (by
          intro p hp
          rcases List.mem_append.mp hp with h1 | h1
          · exact lt_of_lt_of_le (hbdp p h1) (Nat.le_add_right c _)
          · exact (hpg_bounds p h1).2)
        (by
          intro p hp
          rcases List.mem_append.mp hp with h1 | h1
          · exact lt_of_lt_of_le (hbes p h1) (Nat.le_add_right c _)
          · exact (hbounds2 p h1).2)
        (by
          intro p hp
          rcases List.mem_append.mp hp with h1 | h1
          · exact mapGet_append_left (hsub p h1)
          · have hnotin : p.1 ∉ keys esAcc := by
              intro hmem
              obtain ⟨q, hq, hqeq⟩ := List.mem_map.mp hmem
              have hq11 : q.1.1 = p.1.1 := congrArg Prod.fst hqeq
              have := hbes q hq
              have := (hpg_bounds p h1).1
              omega
            rw [mapGet_append_right hnotin]
            exact hpgval p h1)
        (by
          intro p hp
          rcases List.mem_append.mp hp with h1 | h1
          · exact htag p h1
          · exact hpg_tag p h1)
        (by
          intro p hp
          rcases List.mem_append.mp hp with h1 | h1
          · exact hnd p h1
          · obtain ⟨q, hq, hval⟩ := mem_renumberEntries h1
            rw [hval]
            exact nodupDict_val_renameObject _ (hnds d (List.mem_cons_self _ _) q hq))
    refine ⟨dp, es, by rw [hstep, hmax, hdp2, hes2]; exact hrun, hdps, hess, hsub2, htag2,
      hnd2, ?_, d2.objects :: blocks, ?_, by simpa using hblen, ?_⟩
    · rw [hlen]
      simp only [List.length_append, docSizes, List.map_cons, List.sum_cons]
      have : d2.objects.length = d.objects.length := hlen2
      omega
    · rw [hesq, List.append_assoc]
      simp
    · intro i hi hb
      cases i with
      | zero =>
        refine ⟨hlen2, ?_⟩
        intro p hp
        rw [startAtC_zero]
        have h1 := hbounds2 p hp
        rw [show startAtC c (d :: rest) 1 = startAtC (c + d.objects.length) rest 0 from
          startAtC_cons c d rest 0, startAtC_zero]
        exact h1
      | succ i2 =>
        have hi2 : i2 < rest.length := by simpa using hi
        have hb2 : i2 < blocks.length := by simpa using hb
        obtain ⟨hl, hbnd⟩ := hbfacts i2 hi2 hb2
        refine ⟨hl, ?_⟩
        intro p hp
        rw [startAtC_cons, startAtC_cons]
        exact hbnd p hp

/-- Order invariant of `process_documents`, for documents whose display-order
page enumeration is in ascending identifier order: the aggregated leaf list is
the concatenation of the per-document display-order leaf lists, as observed
through any integer-valued dictionary attribute. -/
theorem processGo_pages_order (kn : String) :
    ∀ (docs : List Document) (c : Nat) (dpAcc esAcc : ObjMap),
      1 ≤ c →
      (∀ doc ∈ docs, DocWF doc) →
      (∀ doc ∈ docs, List.Pairwise (fun a b => idLt a b = true) doc.pageIds) →
      (∀ p ∈ dpAcc, p.1.1 < c) →
      ∃ dp es, processGo docs c dpAcc esAcc = .ok (dp, es) ∧
        dp.map (fun p => intOfObj p.2 kn) =
          dpAcc.map (fun p => intOfObj p.2 kn) ++
          (docs.map (fun doc => doc.pageIds.map
            (fun id => intOfObj ((mapGet doc.objects id).getD Object.null) kn))).join := by
  intro docs
  induction docs with
  | nil =>
    intro c dpAcc esAcc _ _ _ _
    exact ⟨dpAcc, esAcc, rfl, by simp⟩
  | cons d rest ih =>
    intro c dpAcc esAcc hc hwf hasc hbdp
    have hwfd : DocWF d := hwf d (List.mem_cons_self _ _)
    have hascd := hasc d (List.mem_cons_self _ _)
    have hsort := hwfd.1
    have hids := hwfd.2
    obtain ⟨hs2, hbounds2, hlen2, hpid2⟩ := renumber_step_spec hwfd c
    set d2 := renumber_objects_with d c with hd2
    set f := replaceMap (keys d.objects) c with hf
    have hpids : d2.pageIds = d.pageIds.map f := renumber_objects_with_pageIds d c
    have hascd2 : List.Pairwise (fun a b => idLt a b = true) d2.pageIds := by
      rw [hpids, List.pairwise_map]
      refine hascd.imp_of_mem ?_
      intro a b ha hb hab
      exact replaceMap_mono hsort (hids a ha) (hids b hb) hab c
    have hidsin : ∀ id2 ∈ d2.pageIds, id2 ∈ keys d2.objects := by
      intro id2 h
      obtain ⟨id, _, v, _, _, hget, _, _⟩ := hpid2 id2 h
      exact List.mem_map_of_mem Prod.fst (mem_of_mapGet_eq_some hget)
    have hext := extractGo_ascending d2.objects d2.pageIds [] hascd2 hidsin (by simp [keys])
    set pg := d2.pageIds.map (fun id => (id, (mapGet d2.objects id).getD Object.null))
      with hpgdef
    have hpg_bounds : ∀ p ∈ pg, c ≤ p.1.1 ∧ p.1.1 < c + d.objects.length := by
      intro p hp
      rw [hpgdef] at hp
      obtain ⟨id2, hid2, rfl⟩ := List.mem_map.mp hp
      obtain ⟨id, _, v, _, _, _, hlb, hub⟩ := hpid2 id2 hid2
      exact ⟨hlb, hub⟩
    have hpgsort : SortedKeys pg := by
      rw [hpgdef]
      show List.Pairwise (fun a b => idLt a b = true)
        (List.map Prod.fst (d2.pageIds.map
          (fun id => (id, (mapGet d2.objects id).getD Object.null))))
      rw [List.map_map]
      rw [show (Prod.fst ∘ fun id : ObjectId =>
        (id, (mapGet d2.objects id).getD Object.null)) = fun id : ObjectId => id from rfl]
      simpa using hascd2
    have hpg_ge : ∀ a ∈ keys dpAcc, ∀ b ∈ keys pg, idLt a b = true := by
      intro a ha b hb
      obtain ⟨p, hp, rfl⟩ := List.mem_map.mp ha
      obtain ⟨q, hq, rfl⟩ := List.mem_map.mp hb
      exact idLt_of_num_lt (lt_of_lt_of_le (hbdp p hp) (hpg_bounds q hq).1)
    have hdp2 : btExtend dpAcc pg = dpAcc ++ pg := btExtend_eq_append hpgsort hpg_ge
    have hmax : d2.maxId + 1 = c + d.objects.length := by
      have h1 := renumber_objects_with_maxId d c
      rw [← hd2] at h1
      omega
    have hstep : processGo (d :: rest) c dpAcc esAcc =
        processGo rest (d2.maxId + 1) (btExtend dpAcc pg) (btExtend esAcc d2.objects) := by
      simp only [processGo]
      rw [← hd2]
      rw [show extract_pages d2 = Except.ok pg from hext]
    obtain ⟨dp, es, hrun, hmap⟩ :=
      ih (c + d.objects.length) (dpAcc ++ pg) (btExtend esAcc d2.objects)
        (by omega)
        (fun doc h => hwf doc (List.mem_cons_of_mem _ h))
        (fun doc h => hasc doc (List.mem_cons_of_mem _ h))
        (by
          intro p hp
          rcases List.mem_append.mp hp with h1 | h1
          · exact lt_of_lt_of_le (hbdp p h1) (Nat.le_add_right c _)
          · exact (hpg_bounds p h1).2)
    have hobj : d2.objects = renumberEntries f c d.objects := by
      rw [hd2, hf]
      rfl
    have hpgmap : pg.map (fun p => intOfObj p.2 kn) =
        d.pageIds.map
          (fun id => intOfObj ((mapGet d.objects id).getD Object.null) kn) := by
      rw [hpgdef, hpids, List.map_map, List.map_map]
      apply List.map_congr_left
      intro id hid
      obtain ⟨v, hv⟩ := mapGet_isSome_of_mem_keys (hids id hid)
      have htr := mapGet_renumber_transfer hsort hv c
      rw [← hf, ← hobj] at htr
      simp only [Function.comp]
      rw [htr, hv]
      simp [intOfObj_renameObject]
    refine ⟨dp, es, by rw [hstep, hmax, hdp2]; exact hrun, ?_⟩
    rw [hmap, List.map_append, hpgmap, List.map_cons]
    simp [List.append_assoc]

/-! ### Classification-loop lemmas -/

theorem type_entry_of_typeTag {d : Dict} {t : String} (ht : t ≠ "")
    (h : typeTag (Object.dictionary d) = t) :
    dictGet d "Type" = some (Object.name t) := by
  simp only [typeTag, type_name] at h
  cases hx : dictGet d "Type" with
  | none => rw [hx] at h; exact absurd h.symm ht
  | some v =>
    cases v with
    | name s =>
      rw [hx] at h
      simp at h
      rw [h]
    | null => rw [hx] at h; exact absurd h.symm ht
    | boolean b => rw [hx] at h; exact absurd h.symm ht
    | integer n => rw [hx] at h; exact absurd h.symm ht
    | strLit s => rw [hx] at h; exact absurd h.symm ht
    | array xs => rw [hx] at h; exact absurd h.symm ht
    | dictionary dd => rw [hx] at h; exact absurd h.symm ht
    | stream dd => rw [hx] at h; exact absurd h.symm ht
    | reference i => rw [hx] at h; exact absurd h.symm ht

theorem firstVal_single (d : Dict) (k : String) : firstVal [d] k = dictGet d k := by
  simp only [firstVal, List.findSome?]
  cases hx : dictGet d k <;> rfl

theorem firstVal_append (ds1 ds2 : List Dict) (k : String) :
    firstVal (ds1 ++ ds2) k =
      match firstVal ds1 k with
      | some v => some v
      | none => firstVal ds2 k := by
  induction ds1 with
  | nil => simp [firstVal]
  | cons d rest ih =>
    simp only [firstVal, List.cons_append, List.findSome?] at *
    cases hx : dictGet d k
    · simpa [hx] using ih
    · simp [hx]

/-- Full characterisation of the classification loop: the pass-through table,
the retained Catalog, the identifier of the Pages accumulator (the last Pages
dictionary encountered), and the earliest-wins content invariant of the Pages
accumulator. -/
theorem fcpGo_spec :
    ∀ (es : List (ObjectId × Object)) (doc : Document)
      (cat pag : Option (ObjectId × Object)) (prev : List Dict),
      PagesInv prev pag →
      (∀ dct ∈ pagesDicts es, (dictKeys dct).Nodup) →
      (fcpGo doc es cat pag).1.objects = btExtend doc.objects (passEntries es) ∧
      (fcpGo doc es cat pag).2.1 =
        (match cat with
         | some c0 => some c0
         | none => es.find? (fun p => typeTag p.2 == "Catalog")) ∧
      ((fcpGo doc es cat pag).2.2).map Prod.fst =
        (match (pagesDictEntries es).getLast? with
         | some e => some e.1
         | none => pag.map Prod.fst) ∧
      PagesInv (prev ++ pagesDicts es) ((fcpGo doc es cat pag).2.2) := by
  intro es
  induction es with
  | nil =>
    intro doc cat pag prev hinv _
    refine ⟨by simp [fcpGo, btExtend, passEntries], ?_, ?_, ?_⟩
    · cases cat <;> simp [fcpGo]
    · simp [fcpGo, pagesDictEntries]
    · simpa [pagesDicts] using hinv
  | cons p rest ih =>
    intro doc cat pag prev hinv hnds
    obtain ⟨oid, obj⟩ := p
    by_cases h1 : typeTag obj = "Catalog"
    · have hstep : fcpGo doc ((oid, obj) :: rest) cat pag =
          fcpGo doc rest (if cat.isNone then some (oid, obj) else cat) pag := by
        simp [fcpGo, h1]
      have hpd : pagesDicts ((oid, obj) :: rest) = pagesDicts rest := by
        simp [pagesDicts, List.filterMap_cons, h1]
      have hpde : pagesDictEntries ((oid, obj) :: rest) = pagesDictEntries rest := by
        simp [pagesDictEntries, List.filter_cons, h1]
      have hpass : passEntries ((oid, obj) :: rest) = passEntries rest := by
        simp [passEntries, List.filter_cons, isPassTag, h1]
      obtain ⟨c1, c2, c3, c4⟩ := ih doc (if cat.isNone then some (oid, obj) else cat) pag prev
        hinv (by rw [hpd] at hnds; exact hnds)
      rw [hstep, hpass, hpd, hpde]
      refine ⟨c1, ?_, c3, c4⟩
      rw [c2]
      cases cat with
      | some c0 => rfl
      | none => simp [List.find?_cons, h1]
    · by_cases h2 : typeTag obj = "Pages"
      · cases hd : as_dict obj with
        | some dict =>
          have hobjdict : obj = Object.dictionary dict := by
            cases obj <;> simp [as_dict] at hd
            rw [hd]
          have htype : dictGet dict "Type" = some (Object.name "Pages") := by
            apply type_entry_of_typeTag (by simp) (t := "Pages")
            rw [← hobjdict]
            exact h2
          have hnddict : (dictKeys dict).Nodup := by
            apply hnds
            simp [pagesDicts, List.filterMap_cons, h2, hd]
          set newDict :=
            (match pag with
             | some (_, existing_object) =>
               (match as_dict existing_object with
                | some old_dictionary => dictExtend dict old_dictionary
                | none => dict)
             | none => dict) with hnewDict
          have hstep : fcpGo doc ((oid, obj) :: rest) cat pag =
              fcpGo doc rest cat (some (oid, Object.dictionary newDict)) := by
            simp [fcpGo, h1, h2, hd, hnewDict]
          have hpd : pagesDicts ((oid, obj) :: rest) = dict :: pagesDicts rest := by
            simp [pagesDicts, List.filterMap_cons, h2, hd]
          have hpde : pagesDictEntries ((oid, obj) :: rest) =
              (oid, obj) :: pagesDictEntries rest := by
            simp [pagesDictEntries, List.filter_cons, h2, hd]
          have hpass : passEntries ((oid, obj) :: rest) = passEntries rest := by
            simp [passEntries, List.filter_cons, isPassTag, h2]
          have hinv2 : PagesInv (prev ++ [dict]) (some (oid, Object.dictionary newDict)) := by
            refine ⟨newDict, rfl, ?_, ?_, ?_⟩
            · cases pag with
              | none => simpa [hnewDict] using hnddict
              | some q =>
                obtain ⟨A, hA, hAnd, hAget, hAty⟩ := hinv
                obtain ⟨qid, qobj⟩ := q
                simp only [] at hA
                rw [hnewDict, hA]
                simp only [as_dict]
                exact nodup_dictKeys_dictExtend hnddict
            · intro k
              cases pag with
              | none =>
                have hprev : prev = [] := hinv
                rw [hnewDict, hprev]
                simp [firstVal_single]
              | some q =>
                obtain ⟨A, hA, hAnd, hAget, hAty⟩ := hinv
                obtain ⟨qid, qobj⟩ := q
                simp only [] at hA
                rw [hnewDict, hA]
                simp only [as_dict]
                rw [dictGet_dictExtend dict k hAnd, hAget k, firstVal_append, firstVal_single]
            · cases pag with
              | none =>
                rw [hnewDict]
                exact htype
              | some q =>
                obtain ⟨A, hA, hAnd, hAget, hAty⟩ := hinv
                obtain ⟨qid, qobj⟩ := q
                simp only [] at hA
                rw [hnewDict, hA]
                simp only [as_dict]
                rw [dictGet_dictExtend dict "Type" hAnd, hAty]
          obtain ⟨c1, c2, c3, c4⟩ := ih doc cat (some (oid, Object.dictionary newDict))
            (prev ++ [dict]) hinv2
            (by
              intro dct hdct
              apply hnds
              rw [hpd]
              exact List.mem_cons_of_mem _ hdct)
          rw [hstep, hpass, hpd, hpde]
          refine ⟨c1, ?_, ?_, ?_⟩
          · rw [c2]
            cases cat with
            | some c0 => rfl
            | none =>
              have : ¬ (typeTag obj == "Catalog") = true := by simp [h1]
              simp [List.find?_cons, this]
          · rw [c3]
            cases hgl : (pagesDictEntries rest).getLast? with
            | some e =>
              have hcons : ((oid, obj) :: pagesDictEntries rest).getLast? = some e := by
                cases hpe : pagesDictEntries rest with
                | nil => rw [hpe] at hgl; cases hgl
                | cons x xs =>
                  rw [List.getLast?_cons_cons, ← hpe, hgl]
              rw [hcons]
            | none =>
              have hnil : pagesDictEntries rest = [] := List.getLast?_eq_none_iff.mp hgl
              rw [hnil]
              rfl
          · rw [show prev ++ (dict :: pagesDicts rest) = (prev ++ [dict]) ++ pagesDicts rest by
              simp]
            exact c4
        | none =>
          have hstep : fcpGo doc ((oid, obj) :: rest) cat pag = fcpGo doc rest cat pag := by
            simp [fcpGo, h1, h2, hd]
          have hpd : pagesDicts ((oid, obj) :: rest) = pagesDicts rest := by
            simp [pagesDicts, List.filterMap_cons, h2, hd]
          have hpde : pagesDictEntries ((oid, obj) :: rest) = pagesDictEntries rest := by
            simp [pagesDictEntries, List.filter_cons, hd]
          have hpass : passEntries ((oid, obj) :: rest) = passEntries rest := by
            simp [passEntries, List.filter_cons, isPassTag, h2]
          obtain ⟨c1, c2, c3, c4⟩ := ih doc cat pag prev hinv
            (by rw [hpd] at hnds; exact hnds)
          rw [hstep, hpass, hpd, hpde]
          refine ⟨c1, ?_, c3, c4⟩
          rw [c2]
          cases cat with
          | some c0 => rfl
          | none =>
            have : ¬ (typeTag obj == "Catalog") = true := by simp [h1]
            simp [List.find?_cons, this]
      · by_cases h3 : typeTag obj = "Page"
        case pos =>
          have hstep : fcpGo doc ((oid, obj) :: rest) cat pag = fcpGo doc rest cat pag := by
            simp [fcpGo, h1, h2, h3]
          have hpd : pagesDicts ((oid, obj) :: rest) = pagesDicts rest := by
            simp [pagesDicts, List.filterMap_cons, h2]
          have hpde : pagesDictEntries ((oid, obj) :: rest) = pagesDictEntries rest := by
            simp [pagesDictEntries, List.filter_cons, h2]
          have hpass : passEntries ((oid, obj) :: rest) = passEntries rest := by
            simp [passEntries, List.filter_cons, isPassTag, h3]
          obtain ⟨c1, c2, c3, c4⟩ := ih doc cat pag prev hinv
            (by rw [hpd] at hnds; exact hnds)
          rw [hstep, hpass, hpd, hpde]
          refine ⟨c1, ?_, c3, c4⟩
          rw [c2]
          cases cat with
          | some c0 => rfl
          | none =>
            have : ¬ (typeTag obj == "Catalog") = true := by simp [h1]
            simp [List.find?_cons, this]
        case neg =>
          by_cases h4 : typeTag obj = "Outlines"
          case pos =>
            have hstep : fcpGo doc ((oid, obj) :: rest) cat pag = fcpGo doc rest cat pag := by
              simp [fcpGo, h1, h2, h3, h4]
            have hpd : pagesDicts ((oid, obj) :: rest) = pagesDicts rest := by
              simp [pagesDicts, List.filterMap_cons, h2]
            have hpde : pagesDictEntries ((oid, obj) :: rest) = pagesDictEntries rest := by
              simp [pagesDictEntries, List.filter_cons, h2]
            have hpass : passEntries ((oid, obj) :: rest) = passEntries rest := by
              simp [passEntries, List.filter_cons, isPassTag, h4]
            obtain ⟨c1, c2, c3, c4⟩ := ih doc cat pag prev hinv
              (by rw [hpd] at hnds; exact hnds)
            rw [hstep, hpass, hpd, hpde]
            refine ⟨c1, ?_, c3, c4⟩
            rw [c2]
            cases cat with
            | some c0 => rfl
            | none =>
              have : ¬ (typeTag obj == "Catalog") = true := by simp [h1]
              simp [List.find?_cons, this]
          case neg =>
            by_cases h5 : typeTag obj = "Outline"
            case pos =>
              have hstep : fcpGo doc ((oid, obj) :: rest) cat pag =
                  fcpGo doc rest cat pag := by
                simp [fcpGo, h1, h2, h3, h4, h5]
              have hpd : pagesDicts ((oid, obj) :: rest) = pagesDicts rest := by
                simp [pagesDicts, List.filterMap_cons, h2]
              have hpde : pagesDictEntries ((oid, obj) :: rest) = pagesDictEntries rest := by
                simp [pagesDictEntries, List.filter_cons, h2]
              have hpass : passEntries ((oid, obj) :: rest) = passEntries rest := by
                simp [passEntries, List.filter_cons, isPassTag, h5]
              obtain ⟨c1, c2, c3, c4⟩ := ih doc cat pag prev hinv
                (by rw [hpd] at hnds; exact hnds)
              rw [hstep, hpass, hpd, hpde]
              refine ⟨c1, ?_, c3, c4⟩
              rw [c2]
              cases cat with
              | some c0 => rfl
              | none =>
                have : ¬ (typeTag obj == "Catalog") = true := by simp [h1]
                simp [List.find?_cons, this]
            case neg =>
              have hstep : fcpGo doc ((oid, obj) :: rest) cat pag =
                  fcpGo { doc with objects := btInsert doc.objects oid obj } rest cat pag := by
                simp [fcpGo, h1, h2, h3, h4, h5]
              have hpd : pagesDicts ((oid, obj) :: rest) = pagesDicts rest := by
                simp [pagesDicts, List.filterMap_cons, h2]
              have hpde : pagesDictEntries ((oid, obj) :: rest) = pagesDictEntries rest := by
                simp [pagesDictEntries, List.filter_cons, h2]
              have hpass : passEntries ((oid, obj) :: rest) =
                  (oid, obj) :: passEntries rest := by
                simp [passEntries, List.filter_cons, isPassTag, h1, h2, h3, h4, h5]
              obtain ⟨c1, c2, c3, c4⟩ :=
                ih { doc with objects := btInsert doc.objects oid obj } cat pag prev hinv
                  (by rw [hpd] at hnds; exact hnds)
              rw [hstep, hpass, hpd, hpde]
              refine ⟨?_, ?_, c3, c4⟩
              · rw [c1]
                rfl
              · rw [c2]
                cases cat with
                | some c0 => rfl
                | none =>
                  have : ¬ (typeTag obj == "Catalog") = true := by simp [h1]
                  simp [List.find?_cons, this]

theorem mapGet_btExtend {other : ObjMap} (hnd : (keys other).Nodup) :
    ∀ {m : ObjMap} (k : ObjectId),
      mapGet (btExtend m other) k =
        match mapGet other k with
        | some v => some v
        | none => mapGet m k := by
  induction other with
  | nil => intro m k; simp [btExtend, mapGet]
  | cons p rest ih =>
    intro m k
    obtain ⟨k1, v1⟩ := p
    simp only [keys, List.map_cons, List.nodup_cons] at hnd
    obtain ⟨hk1, hrest⟩ := hnd
    have hstep : btExtend m ((k1, v1) :: rest) = btExtend (btInsert m k1 v1) rest := rfl
    rw [hstep, ih hrest]
    by_cases hk : k1 = k
    · subst hk
      have hnone : mapGet rest k1 = none :=
        mapGet_eq_none_iff.mpr (by simpa [keys] using hk1)
      rw [hnone]
      have hhead : mapGet ((k1, v1) :: rest) k1 = some v1 := by simp [mapGet]
      rw [hhead]
      show mapGet (btInsert m k1 v1) k1 = some v1
      rw [mapGet_btInsert]
      simp
    · have hhead : mapGet ((k1, v1) :: rest) k = mapGet rest k := by simp [mapGet, hk]
      rw [hhead]
      cases hrk : mapGet rest k with
      | none =>
        show mapGet (btInsert m k1 v1) k = mapGet m k
        rw [mapGet_btInsert, if_neg hk]
      | some w => rfl

theorem sorted_filter {es : ObjMap} (hs : SortedKeys es) (f : (ObjectId × Object) → Bool) :
    SortedKeys (es.filter f) := by
  have hsub : (es.filter f).Sublist es := List.filter_sublist es
  have := hsub.map Prod.fst
  exact List.Pairwise.sublist this hs

theorem sorted_passEntries {es : ObjMap} (hs : SortedKeys es) : SortedKeys (passEntries es) :=
  sorted_filter hs _

theorem mem_passEntries {es : ObjMap} {p : ObjectId × Object} (h : p ∈ passEntries es) :
    p ∈ es ∧ isPassTag (typeTag p.2) = true := by
  have := List.mem_filter.mp h
  exact this

/-- `find_catalog_and_pages` on a table holding a Catalog and a Pages
dictionary: the pass-through table, the retained first Catalog, the last
Pages identifier, and the earliest-wins Pages fold. -/
theorem find_catalog_and_pages_ok {es : ObjMap} (doc : Document)
    (hnds : ∀ dct ∈ pagesDicts es, (dictKeys dct).Nodup)
    {c0 e0 : ObjectId × Object}
    (hc : es.find? (fun p => typeTag p.2 == "Catalog") = some c0)
    (hp : (pagesDictEntries es).getLast? = some e0) :
    ∃ doc2 A,
      find_catalog_and_pages doc es =
        .ok (doc2, ((c0.1, c0.2), (e0.1, Object.dictionary A))) ∧
      doc2.objects = btExtend doc.objects (passEntries es) ∧
      (dictKeys A).Nodup ∧
      (∀ k, dictGet A k = firstVal (pagesDicts es) k) ∧
      dictGet A "Type" = some (Object.name "Pages") := by
  obtain ⟨c1, c2, c3, c4⟩ := fcpGo_spec es doc none none [] rfl hnds
  rw [hc] at c2
  rw [hp] at c3
  rcases hfc : fcpGo doc es none none with ⟨doc2, catR, pagR⟩
  rw [hfc] at c1 c2 c3 c4
  have c2r : catR = some c0 := c2
  have c3r : pagR.map Prod.fst = some e0.1 := c3
  have c4r : PagesInv ([] ++ pagesDicts es) pagR := c4
  cases hpr : pagR with
  | none => rw [hpr] at c3r; cases c3r
  | some q =>
    rw [hpr] at c3r c4r
    obtain ⟨A, hA, hAnd, hAget, hAty⟩ := c4r
    obtain ⟨qid, qobj⟩ := q
    injection c3r with c3r
    simp only [] at hA c3r
    subst c2r
    subst hpr
    subst hA
    subst c3r
    refine ⟨doc2, A, ?_, c1, hAnd, by simpa using hAget, hAty⟩
    show (match fcpGo doc es none none with
      | (doc, some catalog, some pages) => Except.ok (doc, (catalog, pages))
      | _ => Except.error (PdfError.structural "Failed to find catalog and pages objects")) = _
    rw [hfc]

/-- `find_catalog_and_pages` fails with the structural error when no Catalog
object or no Pages dictionary is present. -/
theorem find_catalog_and_pages_err {es : ObjMap} (doc : Document)
    (hnds : ∀ dct ∈ pagesDicts es, (dictKeys dct).Nodup)
    (h : es.find? (fun p => typeTag p.2 == "Catalog") = none ∨
      (pagesDictEntries es).getLast? = none) :
    find_catalog_and_pages doc es =
      .error (.structural "Failed to find catalog and pages objects") := by
  obtain ⟨c1, c2, c3, c4⟩ := fcpGo_spec es doc none none [] rfl hnds
  rcases hfc : fcpGo doc es none none with ⟨doc2, catR, pagR⟩
  rw [hfc] at c2 c3
  have hshow : find_catalog_and_pages doc es =
      (match fcpGo doc es none none with
       | (doc, some catalog, some pages) => Except.ok (doc, (catalog, pages))
       | _ => Except.error (PdfError.structural "Failed to find catalog and pages objects")) := rfl
  rw [hshow, hfc]
  rcases h with h | h
  · have c2r : catR = none := by rw [← h]; exact c2
    subst c2r
    cases pagR <;> rfl
  · rw [h] at c3
    have c3r : pagR.map Prod.fst = none := c3
    cases hpr : pagR with
    | none =>
      subst hpr
      cases catR <;> rfl
    | some q => rw [hpr] at c3r; cases c3r

/-! ### Leaf-attachment lemmas -/

theorem insertPagesGo_ok (pages_id : ObjectId) :
    ∀ (dp : List (ObjectId × Object)) (doc : Document),
      (∀ p ∈ dp, (as_dict p.2).isSome = true) →
      ∃ doc2, insertPagesGo pages_id dp doc = .ok doc2 ∧
        doc2.objects = btExtend doc.objects (dp.map (attachLeaf pages_id)) ∧
        doc2.trailer = doc.trailer := by
  intro dp
  induction dp with
  | nil => intro doc _; exact ⟨doc, rfl, rfl, rfl⟩
  | cons p rest ih =>
    intro doc hdicts
    obtain ⟨d, hd⟩ : ∃ d, as_dict p.2 = some d := by
      have := hdicts p (List.mem_cons_self _ _)
      cases hx : as_dict p.2 with
      | none => rw [hx] at this; cases this
      | some d => exact ⟨d, rfl⟩
    have hstep : insertPagesGo pages_id (p :: rest) doc =
        insertPagesGo pages_id rest
          { doc with
            objects := btInsert doc.objects p.1
              (Object.dictionary (dictSet d "Parent" (Object.reference pages_id))) } := by
      obtain ⟨pk, pv⟩ := p
      simp only [] at hd
      simp [insertPagesGo, hd]
    rw [hstep]
    obtain ⟨doc2, h1, h2, h3⟩ :=
      ih _ (fun q hq => hdicts q (List.mem_cons_of_mem _ hq))
    refine ⟨doc2, h1, ?_, h3⟩
    rw [h2]
    have : attachLeaf pages_id p =
        (p.1, Object.dictionary (dictSet d "Parent" (Object.reference pages_id))) := by
      simp [attachLeaf, hd]
    rw [List.map_cons, this]
    rfl

theorem insertPagesGo_error (pages_id : ObjectId) :
    ∀ (dp : List (ObjectId × Object)) (doc : Document),
      (∃ p ∈ dp, as_dict p.2 = none) →
      insertPagesGo pages_id dp doc = .error .typeError := by
  intro dp
  induction dp with
  | nil => intro doc h; simp at h
  | cons p rest ih =>
    intro doc h
    cases hx : as_dict p.2 with
    | none =>
      obtain ⟨pk, pv⟩ := p
      simp only [] at hx
      simp [insertPagesGo, hx]
    | some d =>
      obtain ⟨q, hq, hqd⟩ := h
      have hqrest : q ∈ rest := by
        rcases List.mem_cons.mp hq with h2 | h2
        · rw [h2] at hqd; rw [hqd] at hx; cases hx
        · exact h2
      obtain ⟨pk, pv⟩ := p
      simp only [] at hx
      rw [show insertPagesGo pages_id ((pk, pv) :: rest) doc =
        insertPagesGo pages_id rest
          { doc with
            objects := btInsert doc.objects pk
              (Object.dictionary (dictSet d "Parent" (Object.reference pages_id))) } by
        simp [insertPagesGo, hx]]
      exact ih _ ⟨q, hqrest, hqd⟩

/-! ### Node-rewrite lemmas -/

theorem update_pages_object_ok (doc : Document) {po : Object} {d : Dict}
    (h : as_dict po = some d) (dp : ObjMap) (pid : ObjectId) :
    update_pages_object doc po dp pid =
      .ok { doc with
            objects := btInsert doc.objects pid
              (Object.dictionary (dictSet (dictSet d "Count" (Object.integer dp.length))
                "Kids" (Object.array (dp.map (fun p => Object.reference p.1))))) } := by
  simp [update_pages_object, h]

theorem update_pages_object_skip (doc : Document) {po : Object}
    (h : as_dict po = none) (dp : ObjMap) (pid : ObjectId) :
    update_pages_object doc po dp pid = .ok doc := by
  simp [update_pages_object, h]

theorem update_catalog_object_ok (doc : Document) {co : Object} {d : Dict}
    (h : as_dict co = some d) (cid pid : ObjectId) :
    update_catalog_object doc co cid pid =
      .ok { doc with
            objects := btInsert doc.objects cid
              (Object.dictionary (dictRemove (dictSet d "Pages" (Object.reference pid))
                "Outlines")) } := by
  simp [update_catalog_object, h]

theorem update_catalog_object_skip (doc : Document) {co : Object}
    (h : as_dict co = none) (cid pid : ObjectId) :
    update_catalog_object doc co cid pid = .ok doc := by
  simp [update_catalog_object, h]

/-! ### Tag bookkeeping -/

theorem typeTag_dictSet_ne (d : Dict) {k : String} (hk : ¬ k = "Type") (v : Object) :
    typeTag (Object.dictionary (dictSet d k v)) = typeTag (Object.dictionary d) := by
  simp [typeTag, type_name, dictGet_dictSet, hk]

theorem typeTag_dictRemove_ne (d : Dict) {k : String} (hk : ¬ "Type" = k) :
    typeTag (Object.dictionary (dictRemove d k)) = typeTag (Object.dictionary d) := by
  simp [typeTag, type_name, dictGet_dictRemove, hk]

theorem obj_eq_dictionary_of_as_dict {o : Object} {d : Dict} (h : as_dict o = some d) :
    o = Object.dictionary d := by
  cases o <;> simp [as_dict] at h
  rw [h]

theorem typeTag_attachLeaf {p : ObjectId × Object} {d : Dict}
    (hd : as_dict p.2 = some d) (pid : ObjectId) :
    typeTag (attachLeaf pid p).2 = typeTag p.2 := by
  have hobj := obj_eq_dictionary_of_as_dict hd
  rw [attachLeaf, hd]
  simp only [Option.getD_some]
  rw [typeTag_dictSet_ne d (by simp), ← hobj]

theorem countV_map_attachLeaf (dp : ObjMap) (pid : ObjectId) (q : Object → Bool)
    (hq : ∀ p ∈ dp, q (attachLeaf pid p).2 = q p.2) :
    countV (dp.map (attachLeaf pid)) q = countV dp q := by
  induction dp with
  | nil => rfl
  | cons p rest ih =>
    simp only [countV, List.map_cons, List.countP_cons] at *
    rw [ih (fun r hr => hq r (List.mem_cons_of_mem _ hr)), hq p (List.mem_cons_self _ _)]

theorem mapGet_passEntries_none {es : ObjMap} (hs : SortedKeys es) {k : ObjectId} {v : Object}
    (hv : mapGet es k = some v) (hnp : isPassTag (typeTag v) = false) :
    mapGet (passEntries es) k = none := by
  cases hx : mapGet (passEntries es) k with
  | none => rfl
  | some w =>
    obtain ⟨hwmem, hwpass⟩ := mem_passEntries (mem_of_mapGet_eq_some hx)
    have heq := mapGet_eq_some_of_mem hs hwmem
    rw [hv] at heq
    injection heq with heq
    rw [← heq] at hwpass
    rw [hwpass] at hnp
    cases hnp

theorem mapGet_passEntries_some {es : ObjMap} (hs : SortedKeys es) {k : ObjectId} {v : Object}
    (hv : mapGet es k = some v) (hp : isPassTag (typeTag v) = true) :
    mapGet (passEntries es) k = some v :=
  mapGet_eq_some_of_mem (sorted_passEntries hs)
    (List.mem_filter.mpr ⟨mem_of_mapGet_eq_some hv, hp⟩)

theorem countV_passEntries_zero (es : ObjMap) {t : String} (ht : isPassTag t = false) :
    countV (passEntries es) (fun o => typeTag o == t) = 0 := by
  apply List.countP_eq_zero.mpr
  intro p hp
  obtain ⟨_, hpass⟩ := mem_passEntries hp
  simp only [beq_iff_eq]
  intro hcontra
  rw [hcontra, ht] at hpass
  cases hpass

theorem countV_renumberEntries_tag (f : ObjectId → ObjectId) (t : String) :
    ∀ (m : ObjMap) (start : Nat),
      countV (renumberEntries f start m) (fun o => typeTag o == t) =
        countV m (fun o => typeTag o == t) := by
  intro m
  induction m with
  | nil => intro start; rfl
  | cons p rest ih =>
    intro start
    obtain ⟨k, v⟩ := p
    simp only [renumberEntries, countV, List.countP_cons] at *
    rw [ih (start + 1)]
    simp [typeTag_renameObject]

theorem kids_extract (f : ObjectId → ObjectId) (dp : ObjMap) :
    (renameList f (dp.map (fun p => Object.reference p.1))).filterMap
      (fun o => match o with | Object.reference i => some i | _ => none) =
      dp.map (fun p => f p.1) := by
  induction dp with
  | nil => rfl
  | cons p rest ih =>
    simp only [List.map_cons, renameList, renameObject, List.filterMap_cons] at *
    rw [ih]

theorem renameList_refs (f : ObjectId → ObjectId) (dp : ObjMap) :
    renameList f (dp.map (fun p => Object.reference p.1)) =
      dp.map (fun p => Object.reference (f p.1)) := by
  induction dp with
  | nil => rfl
  | cons p rest ih =>
    simp only [List.map_cons, renameList, renameObject] at *
    rw [ih]

theorem keys_map_attachLeaf (dp : ObjMap) (pid : ObjectId) :
    keys (dp.map (attachLeaf pid)) = keys dp := by
  simp only [keys, List.map_map]
  apply List.map_congr_left
  intro p _
  rfl

theorem typeTag_of_dict_type {A : Dict} {t : String}
    (h : dictGet A "Type" = some (Object.name t)) :
    typeTag (Object.dictionary A) = t := by
  simp [typeTag, type_name, h]

/-- Successful run shape of `merge_documents`: the output is the
pass-through table plus re-parented leaves plus the rewritten Pages and
Catalog nodes, densely renumbered from 1, with the root pointer installed. -/
theorem merge_documents_run {dp es : ObjMap} {c0 e0 : ObjectId × Object} {catDict : Dict}
    (hsort : SortedKeys es)
    (hdicts : ∀ p ∈ dp, (as_dict p.2).isSome = true)
    (hnds : ∀ dct ∈ pagesDicts es, (dictKeys dct).Nodup)
    (hc : es.find? (fun p => typeTag p.2 == "Catalog") = some c0)
    (hcd : as_dict c0.2 = some catDict)
    (hp : (pagesDictEntries es).getLast? = some e0) :
    ∃ A T out,
      merge_documents dp es = .ok out ∧
      (dictKeys A).Nodup ∧
      (∀ k, dictGet A k = firstVal (pagesDicts es) k) ∧
      dictGet A "Type" = some (Object.name "Pages") ∧
      T = btInsert
            (btInsert (btExtend (passEntries es) (dp.map (attachLeaf e0.1)))
              e0.1
              (Object.dictionary (dictSet (dictSet A "Count" (Object.integer dp.length))
                "Kids" (Object.array (dp.map (fun p => Object.reference p.1))))))
            c0.1
            (Object.dictionary (dictRemove (dictSet catDict "Pages"
              (Object.reference e0.1)) "Outlines")) ∧
      out.objects = renumberEntries (replaceMap (keys T) 1) 1 T ∧
      (∃ tr, out.trailer = renameDict (replaceMap (keys T) 1)
        (dictSet tr "Root" (Object.reference c0.1))) := by
  obtain ⟨doc2, A, hfind, hdoc2obj, hAnd, hAget, hAty⟩ :=
    find_catalog_and_pages_ok (Document.with_version "1.5") hnds hc hp
  have hdoc2obj2 : doc2.objects = passEntries es := by
    rw [hdoc2obj]
    exact btExtend_nil_sorted (sorted_passEntries hsort)
  obtain ⟨doc3, hins, hdoc3obj, _⟩ := insertPagesGo_ok e0.1 dp doc2 hdicts
  have hup := update_pages_object_ok doc3
    (show as_dict (Object.dictionary A) = some A from rfl) dp e0.1
  have huc := update_catalog_object_ok
    { doc3 with
      objects := btInsert doc3.objects e0.1
        (Object.dictionary (dictSet (dictSet A "Count" (Object.integer dp.length))
          "Kids" (Object.array (dp.map (fun p => Object.reference p.1))))) }
    hcd c0.1 e0.1
  have hobj53 : doc3.objects = btExtend (passEntries es) (dp.map (attachLeaf e0.1)) := by
    rw [hdoc3obj, hdoc2obj2]
  have hrun : merge_documents dp es = Except.ok (compress (renumber_objects
      { doc3 with
        objects := btInsert (btInsert doc3.objects e0.1
          (Object.dictionary (dictSet (dictSet A "Count" (Object.integer dp.length))
            "Kids" (Object.array (dp.map (fun p => Object.reference p.1)))))) c0.1
          (Object.dictionary (dictRemove (dictSet catDict "Pages"
            (Object.reference e0.1)) "Outlines"))
        trailer := dictSet doc3.trailer "Root" (Object.reference c0.1)
        maxId := (btInsert (btInsert doc3.objects e0.1
          (Object.dictionary (dictSet (dictSet A "Count" (Object.integer dp.length))
            "Kids" (Object.array (dp.map (fun p => Object.reference p.1)))))) c0.1
          (Object.dictionary (dictRemove (dictSet catDict "Pages"
            (Object.reference e0.1)) "Outlines"))).length })) := by
    unfold merge_documents
    rw [hfind]
    simp only []
    rw [show insert_pages doc2 dp e0.1 = Except.ok doc3 from hins]
    simp only []
    rw [hup]
    simp only []
    rw [huc]
  refine ⟨A, _, _, hrun, hAnd, hAget, hAty, rfl, ?_, ?_⟩
  · rw [← hobj53]
    rfl
  · refine ⟨doc3.trailer, ?_⟩
    rw [← hobj53]
    rfl

/-- Master specification of a successful `merge_documents` on a well-formed
aggregate: the output satisfies the rebuilt tree invariants — a single
Catalog pointing at a single Pages root whose `Count` and `Kids` list the
aggregated leaves, every leaf re-parented to that root, no auxiliary
navigation object surviving, and the leaf order (observed through any
integer attribute other than `Parent`) equal to the aggregated leaf order. -/
theorem merge_documents_spec {dp es : ObjMap} {c0 e0 : ObjectId × Object} {catDict : Dict}
    (hsort : SortedKeys es) (hdpsort : SortedKeys dp)
    (hdp_tag : ∀ p ∈ dp, typeTag p.2 = "Page" ∧ (as_dict p.2).isSome = true)
    (hdp_sub : ∀ p ∈ dp, mapGet es p.1 = some p.2)
    (hnds : NodupDicts es)
    (hc : es.find? (fun p => typeTag p.2 == "Catalog") = some c0)
    (hcd : as_dict c0.2 = some catDict)
    (hp : (pagesDictEntries es).getLast? = some e0) :
    ∃ (out : Document) (f : ObjectId → ObjectId), merge_documents dp es = .ok out ∧
      SortedKeys out.objects ∧
      rootId out = some (f c0.1) ∧
      (∃ cd2, cd2 = renameDict f (dictRemove (dictSet catDict "Pages"
          (Object.reference e0.1)) "Outlines") ∧
        mapGet out.objects (f c0.1) = some (Object.dictionary cd2) ∧
        typeTag (Object.dictionary cd2) = "Catalog" ∧
        dictGet cd2 "Outlines" = none ∧
        dictGet cd2 "Pages" = some (Object.reference (f e0.1))) ∧
      (∃ A pd2, (∀ k, dictGet A k = firstVal (pagesDicts es) k) ∧
        pd2 = renameDict f (dictSet (dictSet A "Count" (Object.integer dp.length))
          "Kids" (Object.array (dp.map (fun p => Object.reference p.1)))) ∧
        mapGet out.objects (f e0.1) = some (Object.dictionary pd2) ∧
        typeTag (Object.dictionary pd2) = "Pages" ∧
        dictGet pd2 "Count" = some (Object.integer dp.length) ∧
        dictGet pd2 "Kids" =
          some (Object.array (dp.map (fun p => Object.reference (f p.1))))) ∧
      kidsOf out.objects (f e0.1) = dp.map (fun p => f p.1) ∧
      countTag out.objects "Page" = dp.length ∧
      countTag out.objects "Catalog" = 1 ∧
      countTag out.objects "Pages" = 1 ∧
      countTag out.objects "Outlines" = 0 ∧
      countTag out.objects "Outline" = 0 ∧
      (∀ k v, mapGet out.objects k = some v → typeTag v = "Page" →
        parentOf out.objects k = some (f e0.1)) ∧
      (∀ kn, ¬ kn = "Parent" →
        dp.map (fun p => intAt out.objects (f p.1) kn) =
          dp.map (fun p => intOfObj p.2 kn)) := by
  -- provenance of the two anchors
  have hc0mem : c0 ∈ es := List.mem_of_find?_eq_some hc
  have hc0tag : typeTag c0.2 = "Catalog" := by
    have := List.find?_some hc
    simpa using this
  have he0pde : e0 ∈ pagesDictEntries es := List.mem_of_mem_getLast? hp
  have he0mem : e0 ∈ es := (List.mem_filter.mp he0pde).1
  have he0pred := (List.mem_filter.mp he0pde).2
  have he0tag : typeTag e0.2 = "Pages" := by
    simp only [Bool.and_eq_true, beq_iff_eq] at he0pred
    exact he0pred.1
  have he0dict : (as_dict e0.2).isSome = true := by
    simp only [Bool.and_eq_true, beq_iff_eq] at he0pred
    exact he0pred.2
  have hcat_get : mapGet es c0.1 = some c0.2 :=
    mapGet_eq_some_of_mem hsort (by simpa using hc0mem)
  have hpag_get : mapGet es e0.1 = some e0.2 :=
    mapGet_eq_some_of_mem hsort (by simpa using he0mem)
  have hcidpid : ¬ c0.1 = e0.1 := by
    intro h
    rw [h, hpag_get] at hcat_get
    injection hcat_get with hx
    rw [← hx] at hc0tag
    rw [he0tag] at hc0tag
    exact absurd hc0tag (by decide)
  have hleafne : ∀ p ∈ dp, ¬ c0.1 = p.1 ∧ ¬ e0.1 = p.1 := by
    intro p hpmem
    obtain ⟨htagp, _⟩ := hdp_tag p hpmem
    have hsubp := hdp_sub p hpmem
    constructor
    · intro h
      rw [← h, hcat_get] at hsubp
      injection hsubp with hx
      rw [hx] at hc0tag
      rw [htagp] at hc0tag
      exact absurd hc0tag (by decide)
    · intro h
      rw [← h, hpag_get] at hsubp
      injection hsubp with hx
      rw [hx] at he0tag
      rw [htagp] at he0tag
      exact absurd he0tag (by decide)
  have hcid_not_dp : c0.1 ∉ keys dp := by
    intro hmem
    obtain ⟨v, hv⟩ := mapGet_isSome_of_mem_keys hmem
    have hvm := mem_of_mapGet_eq_some hv
    exact (hleafne _ hvm).1 rfl
  have hpid_not_dp : e0.1 ∉ keys dp := by
    intro hmem
    obtain ⟨v, hv⟩ := mapGet_isSome_of_mem_keys hmem
    have hvm := mem_of_mapGet_eq_some hv
    exact (hleafne _ hvm).2 rfl
  -- run the merge
  have hndspages : ∀ dct ∈ pagesDicts es, (dictKeys dct).Nodup := by
    intro dct hdct
    obtain ⟨p, hpmem, hpeq⟩ := List.mem_filterMap.mp hdct
    by_cases ht : (typeTag p.2 == "Pages") = true
    · rw [if_pos ht] at hpeq
      have := hnds p hpmem
      rw [hpeq] at this
      simpa using this
    · rw [if_neg ht] at hpeq
      cases hpeq
  obtain ⟨A, T, out, hrun, hAnd, hAget, hAty, hT, houtobj, tr, houttr⟩ :=
    merge_documents_run hsort (fun p hp2 => (hdp_tag p hp2).2) hndspages hc hcd hp
  -- abbreviations
  have hkeysleaves : keys (dp.map (attachLeaf e0.1)) = keys dp := keys_map_attachLeaf dp e0.1
  have hnddp : (keys dp).Nodup := sortedKeys_nodup hdpsort
  have hndleaves : (keys (dp.map (attachLeaf e0.1))).Nodup := by
    rw [hkeysleaves]; exact hnddp
  have hsortleaves : SortedKeys (dp.map (attachLeaf e0.1)) := by
    show List.Pairwise _ (keys (dp.map (attachLeaf e0.1)))
    rw [hkeysleaves]
    exact hdpsort
  have hpassc : mapGet (passEntries es) c0.1 = none :=
    mapGet_passEntries_none hsort hcat_get (by rw [hc0tag]; rfl)
  have hpassp : mapGet (passEntries es) e0.1 = none :=
    mapGet_passEntries_none hsort hpag_get (by rw [he0tag]; rfl)
  have hpassleaf : ∀ p ∈ dp, mapGet (passEntries es) p.1 = none := fun p hp2 =>
    mapGet_passEntries_none hsort (hdp_sub p hp2) (by rw [(hdp_tag p hp2).1]; rfl)
  have hleavesget : ∀ p ∈ dp,
      mapGet (dp.map (attachLeaf e0.1)) p.1 = some (attachLeaf e0.1 p).2 := by
    intro p hp2
    apply mapGet_eq_some_of_mem hsortleaves
    have : attachLeaf e0.1 p ∈ dp.map (attachLeaf e0.1) := List.mem_map_of_mem _ hp2
    simpa using this
  have hleaves_c : mapGet (dp.map (attachLeaf e0.1)) c0.1 = none :=
    mapGet_eq_none_iff.mpr (by rw [hkeysleaves]; exact hcid_not_dp)
  have hleaves_p : mapGet (dp.map (attachLeaf e0.1)) e0.1 = none :=
    mapGet_eq_none_iff.mpr (by rw [hkeysleaves]; exact hpid_not_dp)
  have hT1get := mapGet_btExtend hndleaves (m := passEntries es)
  have hT1c : mapGet (btExtend (passEntries es) (dp.map (attachLeaf e0.1))) c0.1 = none := by
    rw [hT1get, hleaves_c, hpassc]
  have hT1p : mapGet (btExtend (passEntries es) (dp.map (attachLeaf e0.1))) e0.1 = none := by
    rw [hT1get, hleaves_p, hpassp]
  have htagpd : typeTag (Object.dictionary (dictSet (dictSet A "Count"
      (Object.integer dp.length)) "Kids"
      (Object.array (dp.map (fun p => Object.reference p.1))))) = "Pages" := by
    rw [typeTag_dictSet_ne _ (by simp), typeTag_dictSet_ne _ (by simp)]
    exact typeTag_of_dict_type hAty
  have htagcd : typeTag (Object.dictionary (dictRemove (dictSet catDict "Pages"
      (Object.reference e0.1)) "Outlines")) = "Catalog" := by
    rw [typeTag_dictRemove_ne _ (by simp), typeTag_dictSet_ne _ (by simp)]
    rw [← obj_eq_dictionary_of_as_dict hcd]
    exact hc0tag
  have hsortT : SortedKeys T := by
    rw [hT]
    exact sorted_btInsert (sorted_btInsert
      (sorted_btExtend (sorted_passEntries hsort)) _ _) _ _
  have hTc : mapGet T c0.1 = some (Object.dictionary (dictRemove (dictSet catDict "Pages"
      (Object.reference e0.1)) "Outlines")) := by
    rw [hT, mapGet_btInsert]
    simp
  have hTp : mapGet T e0.1 = some (Object.dictionary (dictSet (dictSet A "Count"
      (Object.integer dp.length)) "Kids"
      (Object.array (dp.map (fun p => Object.reference p.1))))) := by
    rw [hT, mapGet_btInsert, if_neg hcidpid, mapGet_btInsert]
    simp
  have hTleaf : ∀ p ∈ dp, mapGet T p.1 = some (attachLeaf e0.1 p).2 := by
    intro p hp2
    rw [hT, mapGet_btInsert, if_neg (hleafne p hp2).1, mapGet_btInsert,
      if_neg (hleafne p hp2).2, hT1get, hleavesget p hp2]
  have hPageChar : ∀ k v, mapGet T k = some v → typeTag v = "Page" →
      ∃ p ∈ dp, v = (attachLeaf e0.1 p).2 := by
    intro k v hkv htagv
    rw [hT, mapGet_btInsert] at hkv
    by_cases h1 : c0.1 = k
    · rw [if_pos h1] at hkv
      injection hkv with hkv
      rw [← hkv] at htagv
      rw [htagcd] at htagv
      exact absurd htagv (by decide)
    · rw [if_neg h1, mapGet_btInsert] at hkv
      by_cases h2 : e0.1 = k
      · rw [if_pos h2] at hkv
        injection hkv with hkv
        rw [← hkv] at htagv
        rw [htagpd] at htagv
        exact absurd htagv (by decide)
      · rw [if_neg h2, hT1get] at hkv
        cases hx : mapGet (dp.map (attachLeaf e0.1)) k with
        | some w =>
          rw [hx] at hkv
          injection hkv with hkv
          have hwm := mem_of_mapGet_eq_some hx
          obtain ⟨p, hpmem, hpeq⟩ := List.mem_map.mp hwm
          exact ⟨p, hpmem, by rw [← hkv, hpeq]⟩
        | none =>
          rw [hx] at hkv
          obtain ⟨_, hpassv⟩ := mem_passEntries (mem_of_mapGet_eq_some hkv)
          rw [htagv] at hpassv
          exact absurd hpassv (by decide)
  -- census of the pre-renumbering table
  have hfreshT2c : mapGet (btInsert (btExtend (passEntries es) (dp.map (attachLeaf e0.1)))
      e0.1 (Object.dictionary (dictSet (dictSet A "Count" (Object.integer dp.length))
        "Kids" (Object.array (dp.map (fun p => Object.reference p.1)))))) c0.1 = none := by
    rw [mapGet_btInsert, if_neg (fun h => hcidpid h.symm), hT1c]
  have hfreshleaves : ∀ p ∈ dp.map (attachLeaf e0.1), mapGet (passEntries es) p.1 = none := by
    intro p hp2
    obtain ⟨q, hqmem, hqeq⟩ := List.mem_map.mp hp2
    rw [← hqeq]
    exact hpassleaf q hqmem
  have htagpres : ∀ p ∈ dp, typeTag (attachLeaf e0.1 p).2 = typeTag p.2 := by
    intro p hp2
    obtain ⟨d, hd⟩ : ∃ d, as_dict p.2 = some d := by
      have h2 := (hdp_tag p hp2).2
      cases hx : as_dict p.2 with
      | none => rw [hx] at h2; cases h2
      | some d => exact ⟨d, rfl⟩
    exact typeTag_attachLeaf hd e0.1
  have hcount_gen : ∀ t : String, isPassTag t = false →
      countV T (fun o => typeTag o == t) =
        countV dp (fun o => typeTag o == t) +
          (if ("Pages" == t) then 1 else 0) + (if ("Catalog" == t) then 1 else 0) := by
    intro t ht
    rw [hT]
    rw [countV_btInsert_fresh hfreshT2c _ _]
    rw [countV_btInsert_fresh hT1p _ _]
    rw [countV_btExtend_fresh hndleaves hfreshleaves _]
    rw [countV_passEntries_zero es ht]
    rw [countV_map_attachLeaf dp e0.1 _ (fun p hp2 => by rw [htagpres p hp2])]
    rw [htagpd, htagcd]
    omega
  have hcountOut : ∀ t, countTag out.objects t = countV T (fun o => typeTag o == t) := by
    intro t
    show countV out.objects (fun o => typeTag o == t) = _
    rw [houtobj]
    exact countV_renumberEntries_tag _ t T 1
  have hcPage : countTag out.objects "Page" = dp.length := by
    rw [hcountOut, hcount_gen "Page" (by decide)]
    have hdp : countV dp (fun o => typeTag o == "Page") = dp.length := by
      apply List.countP_eq_length.mpr
      intro p hp2
      simp [(hdp_tag p hp2).1]
    rw [hdp]
    simp
  have hcCatalog : countTag out.objects "Catalog" = 1 := by
    rw [hcountOut, hcount_gen "Catalog" (by decide)]
    have hdp : countV dp (fun o => typeTag o == "Catalog") = 0 := by
      apply List.countP_eq_zero.mpr
      intro p hp2
      simp [(hdp_tag p hp2).1]
    rw [hdp]
    simp
  have hcPages : countTag out.objects "Pages" = 1 := by
    rw [hcountOut, hcount_gen "Pages" (by decide)]
    have hdp : countV dp (fun o => typeTag o == "Pages") = 0 := by
      apply List.countP_eq_zero.mpr
      intro p hp2
      simp [(hdp_tag p hp2).1]
    rw [hdp]
    simp
  have hcOutlines : countTag out.objects "Outlines" = 0 := by
    rw [hcountOut, hcount_gen "Outlines" (by decide)]
    have hdp : countV dp (fun o => typeTag o == "Outlines") = 0 := by
      apply List.countP_eq_zero.mpr
      intro p hp2
      simp [(hdp_tag p hp2).1]
    rw [hdp]
    simp
  have hcOutline : countTag out.objects "Outline" = 0 := by
    rw [hcountOut, hcount_gen "Outline" (by decide)]
    have hdp : countV dp (fun o => typeTag o == "Outline") = 0 := by
      apply List.countP_eq_zero.mpr
      intro p hp2
      simp [(hdp_tag p hp2).1]
    rw [hdp]
    simp
  -- renumbering transfer
  have houtsort : SortedKeys out.objects := by
    rw [houtobj]
    exact sorted_renumberEntries _ _ _
  have houtc : mapGet out.objects (replaceMap (keys T) 1 c0.1) =
      some (renameObject (replaceMap (keys T) 1) (Object.dictionary
        (dictRemove (dictSet catDict "Pages" (Object.reference e0.1)) "Outlines"))) := by
    rw [houtobj]
    exact mapGet_renumber_transfer hsortT hTc 1
  have houtp : mapGet out.objects (replaceMap (keys T) 1 e0.1) =
      some (renameObject (replaceMap (keys T) 1) (Object.dictionary
        (dictSet (dictSet A "Count" (Object.integer dp.length)) "Kids"
          (Object.array (dp.map (fun p => Object.reference p.1)))))) := by
    rw [houtobj]
    exact mapGet_renumber_transfer hsortT hTp 1
  have houtleaf : ∀ p ∈ dp, mapGet out.objects (replaceMap (keys T) 1 p.1) =
      some (renameObject (replaceMap (keys T) 1) (attachLeaf e0.1 p).2) := by
    intro p hp2
    rw [houtobj]
    exact mapGet_renumber_transfer hsortT (hTleaf p hp2) 1
  have hroot : rootId out = some (replaceMap (keys T) 1 c0.1) := by
    rw [rootId, houttr, dictGet_renameDict, dictGet_dictSet]
    simp [renameObject]
  have hparent : ∀ k v, mapGet out.objects k = some v → typeTag v = "Page" →
      parentOf out.objects k = some (replaceMap (keys T) 1 e0.1) := by
    intro k v hkv htagv
    have hkvmem := mem_of_mapGet_eq_some hkv
    rw [houtobj] at hkvmem
    obtain ⟨q, hqT, hq2⟩ := mem_renumberEntries hkvmem
    simp only [] at hq2
    have hqget : mapGet T q.1 = some q.2 := mapGet_eq_some_of_mem hsortT (by simpa using hqT)
    have htagq : typeTag q.2 = "Page" := by
      rw [hq2, typeTag_renameObject] at htagv
      exact htagv
    obtain ⟨p, hpmem, hpeq⟩ := hPageChar q.1 q.2 hqget htagq
    obtain ⟨d, hd⟩ : ∃ d, as_dict p.2 = some d := by
      have h2 := (hdp_tag p hpmem).2
      cases hx : as_dict p.2 with
      | none => rw [hx] at h2; cases h2
      | some d => exact ⟨d, rfl⟩
    have hattach : (attachLeaf e0.1 p).2 =
        Object.dictionary (dictSet d "Parent" (Object.reference e0.1)) := by
      rw [attachLeaf, hd]
      rfl
    have hval : valAt out.objects k "Parent" =
        some (Object.reference (replaceMap (keys T) 1 e0.1)) := by
      rw [valAt, hkv, hq2, hpeq, hattach]
      simp only [renameObject, as_dict]
      rw [dictGet_renameDict, dictGet_dictSet]
      simp [renameObject]
    rw [parentOf, hval]
  have hknmap : ∀ kn, ¬ kn = "Parent" →
      dp.map (fun p => intAt out.objects (replaceMap (keys T) 1 p.1) kn) =
        dp.map (fun p => intOfObj p.2 kn) := by
    intro kn hkn
    apply List.map_congr_left
    intro p hp2
    obtain ⟨d, hd⟩ : ∃ d, as_dict p.2 = some d := by
      have h2 := (hdp_tag p hp2).2
      cases hx : as_dict p.2 with
      | none => rw [hx] at h2; cases h2
      | some d => exact ⟨d, rfl⟩
    have hattach : (attachLeaf e0.1 p).2 =
        Object.dictionary (dictSet d "Parent" (Object.reference e0.1)) := by
      rw [attachLeaf, hd]
      rfl
    rw [intAt, valAt, houtleaf p hp2, hattach]
    simp only [renameObject, as_dict]
    rw [dictGet_renameDict, dictGet_dictSet, if_neg (fun h => hkn h.symm)]
    rw [obj_eq_dictionary_of_as_dict hd]
    show (match (dictGet d kn).map (renameObject (replaceMap (keys T) 1)) with
      | some (Object.integer n) => some n
      | _ => none) = intOfObj (Object.dictionary d) kn
    rw [intOfObj]
    cases hx : dictGet d kn with
    | none => rfl
    | some w => cases w <;> rfl
  have hvalKids : valAt out.objects (replaceMap (keys T) 1 e0.1) "Kids" =
      some (Object.array (renameList (replaceMap (keys T) 1)
        (dp.map (fun p => Object.reference p.1)))) := by
    rw [valAt, houtp]
    simp only [renameObject, as_dict]
    rw [dictGet_renameDict, dictGet_dictSet, if_pos rfl]
    rfl
  have hkids : kidsOf out.objects (replaceMap (keys T) 1 e0.1) =
      dp.map (fun p => replaceMap (keys T) 1 p.1) := by
    rw [kidsOf, hvalKids]
    exact kids_extract _ dp
  -- assemble
  refine ⟨out, replaceMap (keys T) 1, hrun, houtsort, hroot, ?_, ?_, hkids,
    hcPage, hcCatalog, hcPages, hcOutlines, hcOutline, hparent, hknmap⟩
  · refine ⟨renameDict (replaceMap (keys T) 1)
      (dictRemove (dictSet catDict "Pages" (Object.reference e0.1)) "Outlines"),
      rfl, ?_, ?_, ?_, ?_⟩
    · simpa only [renameObject] using houtc
    · have h2 := typeTag_renameObject (replaceMap (keys T) 1) (Object.dictionary
        (dictRemove (dictSet catDict "Pages" (Object.reference e0.1)) "Outlines"))
      simp only [renameObject] at h2
      rw [h2]
      exact htagcd
    · rw [dictGet_renameDict, dictGet_dictRemove, if_pos rfl]
      rfl
    · rw [dictGet_renameDict, dictGet_dictRemove, if_neg (by decide),
        dictGet_dictSet, if_pos rfl]
      rfl
  · refine ⟨A, renameDict (replaceMap (keys T) 1)
      (dictSet (dictSet A "Count" (Object.integer dp.length)) "Kids"
        (Object.array (dp.map (fun p => Object.reference p.1)))),
      hAget, rfl, ?_, ?_, ?_, ?_⟩
    · simpa only [renameObject] using houtp
    · have h2 := typeTag_renameObject (replaceMap (keys T) 1) (Object.dictionary
        (dictSet (dictSet A "Count" (Object.integer dp.length)) "Kids"
          (Object.array (dp.map (fun p => Object.reference p.1)))))
      simp only [renameObject] at h2
      rw [h2]
      exact htagpd
    · rw [dictGet_renameDict, dictGet_dictSet, if_neg (by decide),
        dictGet_dictSet, if_pos rfl]
      rfl
    · rw [dictGet_renameDict, dictGet_dictSet, if_pos rfl]
      show some (Object.array (renameList (replaceMap (keys T) 1)
        (dp.map (fun p => Object.reference p.1)))) = _
      rw [renameList_refs]

/-! ### Error paths of the merge -/

theorem merge_documents_err_leaf {dp es : ObjMap} (h : ∃ p ∈ dp, as_dict p.2 = none) :
    ∃ e, merge_documents dp es = .error e := by
  unfold merge_documents
  cases hf : find_catalog_and_pages (Document.with_version "1.5") es with
  | error e => exact ⟨e, rfl⟩
  | ok trip =>
    obtain ⟨doc2, ⟨cid, co⟩, pid, po⟩ := trip
    have hins := insertPagesGo_error pid dp doc2 h
    refine ⟨.typeError, ?_⟩
    show (match insert_pages doc2 dp pid with
      | .error e => (Except.error e : Except PdfError Document)
      | .ok document =>
        match update_pages_object document po dp pid with
        | .error e => Except.error e
        | .ok document =>
          match update_catalog_object document co cid pid with
          | .error e => Except.error e
          | .ok document =>
            let document := { document with
              trailer := dictSet document.trailer "Root" (Object.reference cid) }
            let document := { document with maxId := document.objects.length }
            .ok (compress (renumber_objects document))) = Except.error PdfError.typeError
    rw [show insert_pages doc2 dp pid = Except.error PdfError.typeError from hins]

theorem merge_documents_err_find {dp es : ObjMap}
    (hnds : ∀ dct ∈ pagesDicts es, (dictKeys dct).Nodup)
    (h : es.find? (fun p => typeTag p.2 == "Catalog") = none ∨
      (pagesDictEntries es).getLast? = none) :
    merge_documents dp es =
      .error (.structural "Failed to find catalog and pages objects") := by
  unfold merge_documents
  rw [find_catalog_and_pages_err (Document.with_version "1.5") hnds h]

/-! ### Extremal entries in a sorted table -/

theorem getLast?_max {l : ObjMap} (hs : SortedKeys l) {e0 : ObjectId × Object}
    (hgl : l.getLast? = some e0) : ∀ q ∈ l, q = e0 ∨ idLt q.1 e0.1 = true := by
  induction l with
  | nil => intro q hq; simp at hq
  | cons x rest ih =>
    intro q hq
    simp only [SortedKeys, keys, List.map_cons, List.pairwise_cons] at hs
    obtain ⟨hx, hrest⟩ := hs
    cases hre : rest with
    | nil =>
      subst hre
      have hx0 : x = e0 := by
        have : some x = some e0 := hgl
        injection this
      rcases List.mem_cons.mp hq with h2 | h2
      · exact Or.inl (h2.trans hx0)
      · simp at h2
    | cons y ys =>
      subst hre
      rw [List.getLast?_cons_cons] at hgl
      have he0mem : e0 ∈ y :: ys := List.mem_of_mem_getLast? hgl
      rcases List.mem_cons.mp hq with h2 | h2
      · right
        rw [h2]
        exact hx e0.1 (List.mem_map_of_mem Prod.fst he0mem)
      · exact ih hrest hgl q h2

theorem find?_min {l : ObjMap} {pred : (ObjectId × Object) → Bool} (hs : SortedKeys l)
    {c0 : ObjectId × Object} (hf : l.find? pred = some c0) :
    ∀ q ∈ l, pred q = true → q = c0 ∨ idLt c0.1 q.1 = true := by
  induction l with
  | nil => intro q hq; simp at hq
  | cons x rest ih =>
    intro q hq hpq
    simp only [SortedKeys, keys, List.map_cons, List.pairwise_cons] at hs
    obtain ⟨hx, hrest⟩ := hs
    by_cases hpx : pred x = true
    · have hc0 : c0 = x := by
        rw [List.find?_cons_of_pos _ hpx] at hf
        injection hf with hf
        exact hf.symm
      subst hc0
      rcases List.mem_cons.mp hq with h2 | h2
      · exact Or.inl h2
      · right
        exact hx q.1 (List.mem_map_of_mem Prod.fst h2)
    · rw [List.find?_cons_of_neg _ (by simpa using hpx)] at hf
      rcases List.mem_cons.mp hq with h2 | h2
      · rw [h2] at hpq
        exact absurd hpq hpx
      · exact ih hrest hf q h2 hpq

/-! ### Corollaries at the pipeline level -/

theorem firstVal_none {ds : List Dict} {k : String} (h : firstVal ds k = none) :
    ∀ d ∈ ds, dictGet d k = none := by
  induction ds with
  | nil => intro d hd; simp at hd
  | cons x rest ih =>
    intro d hd
    cases hx : dictGet x k with
    | some v =>
      rw [firstVal, List.findSome?_cons_of_isSome _ (by rw [hx]; rfl), hx] at h
      cases h
    | none =>
      rw [firstVal, List.findSome?_cons_of_isNone _ (by rw [hx]; rfl)] at h
      rcases List.mem_cons.mp hd with rfl | hd2
      · exact hx
      · exact ih h d hd2

theorem process_documents_spec {docs : List Document}
    (hwf : ∀ d ∈ docs, DocWF d) (hpw : ∀ d ∈ docs, PageWF d)
    (hnds : ∀ d ∈ docs, NodupDicts d.objects) :
    ∃ dp es, process_documents docs = .ok (dp, es) ∧
      SortedKeys dp ∧ SortedKeys es ∧
      (∀ p ∈ dp, mapGet es p.1 = some p.2) ∧
      (∀ p ∈ dp, typeTag p.2 = "Page" ∧ (as_dict p.2).isSome = true) ∧
      NodupDicts es ∧
      es.length = (docSizes docs).sum ∧
      ∃ blocks : List ObjMap,
        es = blocks.join ∧
        blocks.length = docs.length ∧
        ∀ i, ∀ hi : i < docs.length, ∀ hb : i < blocks.length,
          (blocks.get ⟨i, hb⟩).length = (docs.get ⟨i, hi⟩).objects.length ∧
          ∀ p ∈ blocks.get ⟨i, hb⟩,
            startAtC 1 docs i ≤ p.1.1 ∧ p.1.1 < startAtC 1 docs (i + 1) := by
  obtain ⟨dp, es, heq, h1, h2, h3, h4, h5, h6, blocks, hb1, hb2, hb3⟩ :=
    processGo_spec docs 1 [] [] (le_refl 1) hwf hpw hnds List.Pairwise.nil
      List.Pairwise.nil (by intro p hp; simp at hp) (by intro p hp; simp at hp)
      (by intro p hp; simp at hp) (by intro p hp; simp at hp)
      (by intro p hp; simp at hp)
  exact ⟨dp, es, heq, h1, h2, h3, h4, h5, by simpa using h6, blocks,
    by simpa using hb1, hb2, hb3⟩

theorem merge_pdfs_from_spec {docs : List Document}
    (hwf : ∀ d ∈ docs, DocWF d) (hpw : ∀ d ∈ docs, PageWF d)
    (hnds : ∀ d ∈ docs, NodupDicts d.objects)
    {dp es : ObjMap} (hproc : process_documents docs = Except.ok (dp, es))
    {c0 e0 : ObjectId × Object} {catDict : Dict}
    (hc : es.find? (fun p => typeTag p.2 == "Catalog") = some c0)
    (hcd : as_dict c0.2 = some catDict)
    (hp : (pagesDictEntries es).getLast? = some e0) :
    SortedKeys es ∧ SortedKeys dp ∧
    (∀ p ∈ dp, typeTag p.2 = "Page" ∧ (as_dict p.2).isSome = true) ∧
    ∃ (out : Document) (f : ObjectId → ObjectId), merge_pdfs_from docs = .ok out ∧
      SortedKeys out.objects ∧
      rootId out = some (f c0.1) ∧
      (∃ cd2, cd2 = renameDict f (dictRemove (dictSet catDict "Pages"
          (Object.reference e0.1)) "Outlines") ∧
        mapGet out.objects (f c0.1) = some (Object.dictionary cd2) ∧
        typeTag (Object.dictionary cd2) = "Catalog" ∧
        dictGet cd2 "Outlines" = none ∧
        dictGet cd2 "Pages" = some (Object.reference (f e0.1))) ∧
      (∃ A pd2, (∀ k, dictGet A k = firstVal (pagesDicts es) k) ∧
        pd2 = renameDict f (dictSet (dictSet A "Count" (Object.integer dp.length))
          "Kids" (Object.array (dp.map (fun p => Object.reference p.1)))) ∧
        mapGet out.objects (f e0.1) = some (Object.dictionary pd2) ∧
        typeTag (Object.dictionary pd2) = "Pages" ∧
        dictGet pd2 "Count" = some (Object.integer dp.length) ∧
        dictGet pd2 "Kids" =
          some (Object.array (dp.map (fun p => Object.reference (f p.1))))) ∧
      kidsOf out.objects (f e0.1) = dp.map (fun p => f p.1) ∧
      countTag out.objects "Page" = dp.length ∧
      countTag out.objects "Catalog" = 1 ∧
      countTag out.objects "Pages" = 1 ∧
      countTag out.objects "Outlines" = 0 ∧
      countTag out.objects "Outline" = 0 ∧
      (∀ k v, mapGet out.objects k = some v → typeTag v = "Page" →
        parentOf out.objects k = some (f e0.1)) ∧
      (∀ kn, ¬ kn = "Parent" →
        dp.map (fun p => intAt out.objects (f p.1) kn) =
          dp.map (fun p => intOfObj p.2 kn)) := by
  obtain ⟨dp2, es2, heq, hdpsort, hsort, hsub, htag, hnd, -, -⟩ :=
    process_documents_spec hwf hpw hnds
  rw [hproc] at heq
  injection heq with heq
  injection heq with h1 h2
  subst h2
  subst h1
  have hrun : merge_pdfs_from docs = merge_documents dp es := by
    unfold merge_pdfs_from
    rw [hproc]
  refine ⟨hsort, hdpsort, htag, ?_⟩
  rw [hrun]
  exact merge_documents_spec hsort hdpsort htag hsub hnd hc hcd hp

/-! ### The claims -/

/-- C1: for every successful merge, the output Pages-tree root's `Count`
field equals the length of its `Kids` list, which equals the number of
Page-tagged objects in the output table, and every Page-tagged object's
`Parent` field names the reconciled Pages-tree root's identifier. -/
theorem C1_tree_invariants {docs : List Document}
    (hwf : ∀ d ∈ docs, DocWF d) (hpw : ∀ d ∈ docs, PageWF d)
    (hnds : ∀ d ∈ docs, NodupDicts d.objects)
    {dp es : ObjMap} (hproc : process_documents docs = Except.ok (dp, es))
    {c0 e0 : ObjectId × Object} {catDict : Dict}
    (hc : es.find? (fun p => typeTag p.2 == "Catalog") = some c0)
    (hcd : as_dict c0.2 = some catDict)
    (hp : (pagesDictEntries es).getLast? = some e0) :
    ∃ (out : Document) (f : ObjectId → ObjectId), merge_pdfs_from docs = .ok out ∧
      countField out.objects (f e0.1) = some ((kidsLen out.objects (f e0.1) : Nat) : Int) ∧
      kidsLen out.objects (f e0.1) = countTag out.objects "Page" ∧
      (∀ k v, mapGet out.objects k = some v → typeTag v = "Page" →
        parentOf out.objects k = some (f e0.1)) := by
  obtain ⟨-, -, -, out, f, hok, -, -, -,
    ⟨A, pd2, -, -, hpd2get, -, hcount, -⟩, hkids, hcPage, -, -, -, -, hparent, -⟩ :=
    merge_pdfs_from_spec hwf hpw hnds hproc hc hcd hp
  have hval : valAt out.objects (f e0.1) "Count" = some (Object.integer dp.length) := by
    rw [valAt, hpd2get]
    simp only [as_dict]
    exact hcount
  have hcf : countField out.objects (f e0.1) = some ((dp.length : Nat) : Int) := by
    rw [countField, hval]
  have hkl : kidsLen out.objects (f e0.1) = dp.length := by
    rw [kidsLen, hkids, List.length_map]
  refine ⟨out, f, hok, ?_, ?_, hparent⟩
  · rw [hkl]
    exact hcf
  · rw [hkl, hcPage]

/-- C1 witness: the fixture merge of two one-page documents. -/
theorem C1_tree_invariants_witness :
    ∃ (out : Document) (f : ObjectId → ObjectId), merge_pdfs_from exDocs = .ok out ∧
      countField out.objects (f exE0.1) =
        some ((kidsLen out.objects (f exE0.1) : Nat) : Int) ∧
      kidsLen out.objects (f exE0.1) = countTag out.objects "Page" ∧
      (∀ k v, mapGet out.objects k = some v → typeTag v = "Page" →
        parentOf out.objects k = some (f exE0.1)) :=
  @C1_tree_invariants exDocs (by decide) (by decide) (by decide)
    exPages exObjs rfl exC0 exE0 exCatDict rfl rfl rfl

/-- C2 (amended): for every merge of documents whose display-order page
identifiers are already in ascending identifier order, the output leaves
appear in input document order with each document's own leaf order preserved,
and the output has exactly as many leaves as the inputs, with matching
`Count` and `Kids` length.  (Without the ascending-order premise the
aggregate container reorders a document's leaves by identifier; see the
counterexample.) -/
theorem C2_leaf_order {docs : List Document} {kn : String} (hkn : ¬ kn = "Parent")
    (hwf : ∀ d ∈ docs, DocWF d) (hpw : ∀ d ∈ docs, PageWF d)
    (hnds : ∀ d ∈ docs, NodupDicts d.objects)
    (hasc : ∀ d ∈ docs, List.Pairwise (fun a b => idLt a b = true) d.pageIds)
    {dp es : ObjMap} (hproc : process_documents docs = Except.ok (dp, es))
    {c0 e0 : ObjectId × Object} {catDict : Dict}
    (hc : es.find? (fun p => typeTag p.2 == "Catalog") = some c0)
    (hcd : as_dict c0.2 = some catDict)
    (hp : (pagesDictEntries es).getLast? = some e0) :
    ∃ (out : Document) (f : ObjectId → ObjectId), merge_pdfs_from docs = .ok out ∧
      (kidsOf out.objects (f e0.1)).map (fun k => intAt out.objects k kn) =
        (docs.map (fun d => d.pageIds.map
          (fun id => intOfObj ((mapGet d.objects id).getD Object.null) kn))).join ∧
      kidsLen out.objects (f e0.1) = countTag out.objects "Page" ∧
      countTag out.objects "Page" = (docs.map (fun d => d.pageIds.length)).sum ∧
      countField out.objects (f e0.1) =
        some (((docs.map (fun d => d.pageIds.length)).sum : Nat) : Int) := by
  obtain ⟨dp2, es2, heq, horder⟩ :=
    processGo_pages_order kn docs 1 [] [] (le_refl 1) hwf hasc
      (by intro p hp2; simp at hp2)
  have heq2 : process_documents docs = Except.ok (dp2, es2) := heq
  rw [hproc] at heq2
  injection heq2 with heq2
  injection heq2 with h1 h2
  subst h2
  subst h1
  have horder2 : dp.map (fun p => intOfObj p.2 kn) =
      (docs.map (fun d => d.pageIds.map
        (fun id => intOfObj ((mapGet d.objects id).getD Object.null) kn))).join := by
    simpa using horder
  obtain ⟨-, -, -, out, f, hok, -, -, -,
    ⟨A, pd2, -, -, hpd2get, -, hcount, -⟩, hkids, hcPage, -, -, -, -, -, hint⟩ :=
    merge_pdfs_from_spec hwf hpw hnds hproc hc hcd hp
  have hlen : dp.length = (docs.map (fun d => d.pageIds.length)).sum := by
    have h := congrArg List.length horder2
    rw [List.length_map, List.length_join, List.map_map] at h
    rw [h]
    congr 1
    apply List.map_congr_left
    intro d _
    simp [Function.comp]
  have hval : valAt out.objects (f e0.1) "Count" = some (Object.integer dp.length) := by
    rw [valAt, hpd2get]
    simp only [as_dict]
    exact hcount
  refine ⟨out, f, hok, ?_, ?_, ?_, ?_⟩
  · rw [hkids, List.map_map]
    calc dp.map ((fun k => intAt out.objects k kn) ∘ (fun p => f p.1))
        = dp.map (fun p => intAt out.objects (f p.1) kn) := rfl
      _ = dp.map (fun p => intOfObj p.2 kn) := hint kn hkn
      _ = _ := horder2
  · rw [kidsLen, hkids, List.length_map, hcPage]
  · rw [hcPage, hlen]
  · rw [countField, hval, hlen]

/-- C2 witness: the two-fixture merge, whose page tags come out in input
order. -/
theorem C2_leaf_order_witness :
    ∃ (out : Document) (f : ObjectId → ObjectId), merge_pdfs_from exDocs = .ok out ∧
      (kidsOf out.objects (f exE0.1)).map (fun k => intAt out.objects k "Tag") =
        (exDocs.map (fun d => d.pageIds.map
          (fun id => intOfObj ((mapGet d.objects id).getD Object.null) "Tag"))).join ∧
      kidsLen out.objects (f exE0.1) = countTag out.objects "Page" ∧
      countTag out.objects "Page" = (exDocs.map (fun d => d.pageIds.length)).sum ∧
      countField out.objects (f exE0.1) =
        some (((exDocs.map (fun d => d.pageIds.length)).sum : Nat) : Int) :=
  @C2_leaf_order exDocs "Tag" (by decide) (by decide) (by decide) (by decide)
    (by decide) exPages exObjs rfl exC0 exE0 exCatDict rfl rfl rfl

set_option maxHeartbeats 4000000 in
/-- C2 counterexample: a document whose page tree lists its leaves in the
reverse of their identifier order.  The merged output's kid sequence carries
the tags `[2, 1]`, while the document's own display order carries `[1, 2]`:
the per-document leaf order is not preserved. -/
theorem C2_order_counterexample :
    merge_pdfs_from [cexOrderDoc] = .ok cexOut ∧
    (kidsOf cexOut.objects (1, 0)).map (fun k => intAt cexOut.objects k "Tag") =
      [some 2, some 1] ∧
    cexOrderDoc.pageIds.map
      (fun id => intOfObj ((mapGet cexOrderDoc.objects id).getD Object.null) "Tag") =
      [some 1, some 2] ∧
    rootId cexOut = some (4, 0) ∧
    parentOf cexOut.objects (2, 0) = some (1, 0) ∧
    parentOf cexOut.objects (3, 0) = some (1, 0) := by
  exact ⟨rfl, rfl, rfl, rfl, rfl, rfl⟩

/-- C3: processing renumbers the documents strictly in input order with a
running counter starting at 1; document `i` occupies the identifier block
from the counter's value up to (but excluding) its value advanced past the
document's objects, so every identifier of the aggregated table is unique. -/
theorem C3_renumbering_unique {docs : List Document}
    (hwf : ∀ d ∈ docs, DocWF d) (hpw : ∀ d ∈ docs, PageWF d)
    (hnds : ∀ d ∈ docs, NodupDicts d.objects) :
    ∃ dp es, process_documents docs = .ok (dp, es) ∧
      SortedKeys es ∧ (keys es).Nodup ∧
      es.length = (docSizes docs).sum ∧
      ∃ blocks : List ObjMap,
        es = blocks.join ∧
        blocks.length = docs.length ∧
        ∀ i, ∀ hi : i < docs.length, ∀ hb : i < blocks.length,
          (blocks.get ⟨i, hb⟩).length = (docs.get ⟨i, hi⟩).objects.length ∧
          ∀ p ∈ blocks.get ⟨i, hb⟩,
            startAtC 1 docs i ≤ p.1.1 ∧ p.1.1 < startAtC 1 docs (i + 1) := by
  obtain ⟨dp, es, heq, -, hsort, -, -, -, hlen, blocks, hb1, hb2, hb3⟩ :=
    process_documents_spec hwf hpw hnds
  exact ⟨dp, es, heq, hsort, sortedKeys_nodup hsort, hlen, blocks, hb1, hb2, hb3⟩

/-- C3 witness: the two-fixture input, renumbered into the blocks 1–6 and
7–12. -/
theorem C3_renumbering_unique_witness :
    ∃ dp es, process_documents exDocs = .ok (dp, es) ∧
      SortedKeys es ∧ (keys es).Nodup ∧
      es.length = (docSizes exDocs).sum ∧
      ∃ blocks : List ObjMap,
        es = blocks.join ∧
        blocks.length = exDocs.length ∧
        ∀ i, ∀ hi : i < exDocs.length, ∀ hb : i < blocks.length,
          (blocks.get ⟨i, hb⟩).length = (exDocs.get ⟨i, hi⟩).objects.length ∧
          ∀ p ∈ blocks.get ⟨i, hb⟩,
            startAtC 1 exDocs i ≤ p.1.1 ∧ p.1.1 < startAtC 1 exDocs (i + 1) :=
  @C3_renumbering_unique exDocs (by decide) (by decide) (by decide)

/-- C4 (amended): for every successful merge whose first-encountered Catalog
object is a dictionary, the output has exactly one Catalog and exactly one
Pages object; the retained Catalog is the earliest Catalog-tagged entry in
ascending identifier order, and the output root is that entry's dictionary
(with its `Pages` pointer redirected and `Outlines` dropped) — every later
Catalog is discarded rather than merged.  (When the first Catalog is not a
dictionary the merge can still succeed with no Catalog at all; see the
counterexample.) -/
theorem C4_single_catalog_pages {docs : List Document}
    (hwf : ∀ d ∈ docs, DocWF d) (hpw : ∀ d ∈ docs, PageWF d)
    (hnds : ∀ d ∈ docs, NodupDicts d.objects)
    {dp es : ObjMap} (hproc : process_documents docs = Except.ok (dp, es))
    {c0 e0 : ObjectId × Object} {catDict : Dict}
    (hc : es.find? (fun p => typeTag p.2 == "Catalog") = some c0)
    (hcd : as_dict c0.2 = some catDict)
    (hp : (pagesDictEntries es).getLast? = some e0) :
    ∃ (out : Document) (f : ObjectId → ObjectId), merge_pdfs_from docs = .ok out ∧
      countTag out.objects "Catalog" = 1 ∧
      countTag out.objects "Pages" = 1 ∧
      typeTag c0.2 = "Catalog" ∧
      (∀ q ∈ es, typeTag q.2 = "Catalog" → q = c0 ∨ idLt c0.1 q.1 = true) ∧
      rootId out = some (f c0.1) ∧
      mapGet out.objects (f c0.1) = some (Object.dictionary (renameDict f
        (dictRemove (dictSet catDict "Pages" (Object.reference e0.1)) "Outlines"))) := by
  obtain ⟨hsort, -, -, out, f, hok, -, hroot,
    ⟨cd2, hcd2def, hcd2get, -, -, -⟩, -, -, -, hcCat, hcPages, -, -, -, -⟩ :=
    merge_pdfs_from_spec hwf hpw hnds hproc hc hcd hp
  refine ⟨out, f, hok, hcCat, hcPages, ?_, ?_, hroot, by rw [← hcd2def]; exact hcd2get⟩
  · have h := List.find?_some hc
    simpa using h
  · intro q hq hq2
    exact find?_min hsort hc q hq (by simp [hq2])

/-- C4 witness: the two-fixture merge carries two input Catalogs; the output
keeps exactly one, the earliest. -/
theorem C4_single_catalog_pages_witness :
    ∃ (out : Document) (f : ObjectId → ObjectId), merge_pdfs_from exDocs = .ok out ∧
      countTag out.objects "Catalog" = 1 ∧
      countTag out.objects "Pages" = 1 ∧
      typeTag exC0.2 = "Catalog" ∧
      (∀ q ∈ exObjs, typeTag q.2 = "Catalog" → q = exC0 ∨ idLt exC0.1 q.1 = true) ∧
      rootId out = some (f exC0.1) ∧
      mapGet out.objects (f exC0.1) = some (Object.dictionary (renameDict f
        (dictRemove (dictSet exCatDict "Pages" (Object.reference exE0.1)) "Outlines"))) :=
  @C4_single_catalog_pages exDocs (by decide) (by decide) (by decide)
    exPages exObjs rfl exC0 exE0 exCatDict rfl rfl rfl

set_option maxHeartbeats 4000000 in
/-- C4 counterexample: when the only Catalog-tagged object is a stream, the
merge still succeeds but the output holds no Catalog at all, refuting the
unconditional "exactly one top-level descriptor" reading. -/
theorem C4_first_catalog_counterexample :
    merge_pdfs_from [streamCatalogDoc] = .ok streamOut ∧
    countTag streamCatalogDoc.objects "Catalog" = 1 ∧
    countTag streamOut.objects "Catalog" = 0 ∧
    countTag streamOut.objects "Pages" = 1 := by
  exact ⟨rfl, rfl, rfl, rfl⟩

/-- C5: when the Pages dictionaries of the inputs are folded, the reconciled
Pages dictionary binds every key to the value of the earliest input
dictionary binding it, and a key bound by any input dictionary — also one
unique to a later input — is still bound in the result. -/
theorem C5_pages_fold_first_wins {es : ObjMap} (doc : Document)
    (hnds : ∀ dct ∈ pagesDicts es, (dictKeys dct).Nodup)
    {c0 e0 : ObjectId × Object}
    (hc : es.find? (fun p => typeTag p.2 == "Catalog") = some c0)
    (hp : (pagesDictEntries es).getLast? = some e0) :
    ∃ doc2 A,
      find_catalog_and_pages doc es = .ok (doc2, (c0, (e0.1, Object.dictionary A))) ∧
      (∀ k, dictGet A k = firstVal (pagesDicts es) k) ∧
      (∀ k, dictGet A k = none → ∀ d ∈ pagesDicts es, dictGet d k = none) := by
  obtain ⟨doc2, A, hfind, -, -, hAget, -⟩ := find_catalog_and_pages_ok doc hnds hc hp
  refine ⟨doc2, A, hfind, hAget, ?_⟩
  intro k hk
  rw [hAget k] at hk
  exact firstVal_none hk

/-- C5 witness: the aggregated table of the two-fixture input, which carries
two Pages dictionaries. -/
theorem C5_pages_fold_first_wins_witness :
    ∃ doc2 A,
      find_catalog_and_pages (Document.with_version "1.5") exObjs =
        .ok (doc2, (exC0, (exE0.1, Object.dictionary A))) ∧
      (∀ k, dictGet A k = firstVal (pagesDicts exObjs) k) ∧
      (∀ k, dictGet A k = none → ∀ d ∈ pagesDicts exObjs, dictGet d k = none) :=
  @C5_pages_fold_first_wins exObjs (Document.with_version "1.5") (by decide)
    exC0 exE0 rfl rfl

/-- C6: if any aggregated leaf object is not a dictionary, the whole merge
fails with an error — corresponding to the specification's structural-error
class for malformed input — and no output document is returned. -/
theorem C6_leaf_not_dict_fails {dp es : ObjMap} (h : ∃ p ∈ dp, as_dict p.2 = none) :
    (∃ e, merge_documents dp es = .error e) ∧
    ∀ out : Document, ¬ merge_documents dp es = .ok out := by
  obtain ⟨e, he⟩ := merge_documents_err_leaf h
  refine ⟨⟨e, he⟩, ?_⟩
  intro out hok
  rw [he] at hok
  exact Except.noConfusion hok

/-- C6 witness: a leaf mapping holding a stream object. -/
theorem C6_leaf_not_dict_fails_witness :
    (∃ e, merge_documents [((1, 0), Object.stream [])] [] = .error e) ∧
    ∀ out : Document, ¬ merge_documents [((1, 0), Object.stream [])] [] = .ok out :=
  C6_leaf_not_dict_fails ⟨((1, 0), Object.stream []), List.mem_singleton_self _, rfl⟩

/-- C7: if the aggregated table holds no Catalog or no Pages dictionary, the
merge fails with the structural error; in particular merging the empty input
list fails with the structural error rather than producing a document. -/
theorem C7_missing_anchors_fails :
    merge_pdfs_from [] =
      .error (.structural "Failed to find catalog and pages objects") ∧
    ∀ dp es : ObjMap, (∀ dct ∈ pagesDicts es, (dictKeys dct).Nodup) →
      (es.find? (fun p => typeTag p.2 == "Catalog") = none ∨
        (pagesDictEntries es).getLast? = none) →
      merge_documents dp es =
        .error (.structural "Failed to find catalog and pages objects") := by
  refine ⟨rfl, ?_⟩
  intro dp es hnds h
  exact merge_documents_err_find hnds h

/-- C7 witness: the empty input list, and a table with no Catalog entry. -/
theorem C7_missing_anchors_fails_witness :
    merge_pdfs_from [] =
      .error (.structural "Failed to find catalog and pages objects") ∧
    merge_documents [] [((1, 0), Object.null)] =
      .error (.structural "Failed to find catalog and pages objects") :=
  ⟨C7_missing_anchors_fails.1,
    C7_missing_anchors_fails.2 [] [((1, 0), Object.null)]
      (by intro dct hd; simp [pagesDicts, typeTag, type_name] at hd) (Or.inl rfl)⟩

/-- C8: for every successful merge, no outline object survives — the output
table holds no Outlines- or Outline-tagged object — and the output root
dictionary has no `Outlines` key, even when the retained catalog originally
had one. -/
theorem C8_no_outlines {docs : List Document}
    (hwf : ∀ d ∈ docs, DocWF d) (hpw : ∀ d ∈ docs, PageWF d)
    (hnds : ∀ d ∈ docs, NodupDicts d.objects)
    {dp es : ObjMap} (hproc : process_documents docs = Except.ok (dp, es))
    {c0 e0 : ObjectId × Object} {catDict : Dict}
    (hc : es.find? (fun p => typeTag p.2 == "Catalog") = some c0)
    (hcd : as_dict c0.2 = some catDict)
    (hp : (pagesDictEntries es).getLast? = some e0) :
    ∃ (out : Document) (f : ObjectId → ObjectId), merge_pdfs_from docs = .ok out ∧
      countTag out.objects "Outlines" = 0 ∧
      countTag out.objects "Outline" = 0 ∧
      rootId out = some (f c0.1) ∧
      (∃ cd, mapGet out.objects (f c0.1) = some (Object.dictionary cd) ∧
        typeTag (Object.dictionary cd) = "Catalog" ∧
        dictGet cd "Outlines" = none) := by
  obtain ⟨-, -, -, out, f, hok, -, hroot,
    ⟨cd2, -, hcd2get, hcd2tag, hcd2out, -⟩, -, -, -, -, -, hcOutlines, hcOutline,
    -, -⟩ :=
    merge_pdfs_from_spec hwf hpw hnds hproc hc hcd hp
  exact ⟨out, f, hok, hcOutlines, hcOutline, hroot, cd2, hcd2get, hcd2tag, hcd2out⟩

/-- C8 witness: a document whose catalog carries an `Outlines` entry and
whose table holds an Outlines object; both are gone after the merge. -/
theorem C8_no_outlines_witness :
    (dictGet olCatDict "Outlines").isSome = true ∧
    countTag olObjs "Outlines" = 1 ∧
    ∃ (out : Document) (f : ObjectId → ObjectId), merge_pdfs_from olDocs = .ok out ∧
      countTag out.objects "Outlines" = 0 ∧
      countTag out.objects "Outline" = 0 ∧
      rootId out = some (f olC0.1) ∧
      (∃ cd, mapGet out.objects (f olC0.1) = some (Object.dictionary cd) ∧
        typeTag (Object.dictionary cd) = "Catalog" ∧
        dictGet cd "Outlines" = none) :=
  ⟨rfl, rfl,
    @C8_no_outlines olDocs (by decide) (by decide) (by decide)
      olPages olObjs rfl olC0 olE0 olCatDict rfl rfl rfl⟩

/-- C9: the reconciled Pages dictionary is written back under the identifier
of the last-encountered Pages entry — the one with the highest identifier,
hence the latest input's — and the root's `Pages` pointer and every leaf's
`Parent` name that identifier. -/
theorem C9_last_pages_id {docs : List Document}
    (hwf : ∀ d ∈ docs, DocWF d) (hpw : ∀ d ∈ docs, PageWF d)
    (hnds : ∀ d ∈ docs, NodupDicts d.objects)
    {dp es : ObjMap} (hproc : process_documents docs = Except.ok (dp, es))
    {c0 e0 : ObjectId × Object} {catDict : Dict}
    (hc : es.find? (fun p => typeTag p.2 == "Catalog") = some c0)
    (hcd : as_dict c0.2 = some catDict)
    (hp : (pagesDictEntries es).getLast? = some e0) :
    ∃ (out : Document) (f : ObjectId → ObjectId), merge_pdfs_from docs = .ok out ∧
      typeTag e0.2 = "Pages" ∧
      (∀ q ∈ pagesDictEntries es, q = e0 ∨ idLt q.1 e0.1 = true) ∧
      (∃ pd, mapGet out.objects (f e0.1) = some (Object.dictionary pd) ∧
        typeTag (Object.dictionary pd) = "Pages") ∧
      (∃ cd, mapGet out.objects (f c0.1) = some (Object.dictionary cd) ∧
        dictGet cd "Pages" = some (Object.reference (f e0.1))) ∧
      rootId out = some (f c0.1) ∧
      (∀ k v, mapGet out.objects k = some v → typeTag v = "Page" →
        parentOf out.objects k = some (f e0.1)) := by
  obtain ⟨hsort, -, -, out, f, hok, -, hroot,
    ⟨cd2, -, hcd2get, -, -, hcd2pages⟩,
    ⟨A, pd2, -, -, hpd2get, hpd2tag, -, -⟩, -, -, -, -, -, -, hparent, -⟩ :=
    merge_pdfs_from_spec hwf hpw hnds hproc hc hcd hp
  have hmax : ∀ q ∈ pagesDictEntries es, q = e0 ∨ idLt q.1 e0.1 = true :=
    getLast?_max (sorted_filter hsort _) hp
  have he0tag : typeTag e0.2 = "Pages" := by
    have hm := List.mem_of_mem_getLast? hp
    have hpred := (List.mem_filter.mp hm).2
    simp only [Bool.and_eq_true, beq_iff_eq] at hpred
    exact hpred.1
  exact ⟨out, f, hok, he0tag, hmax, ⟨pd2, hpd2get, hpd2tag⟩,
    ⟨cd2, hcd2get, hcd2pages⟩, hroot, hparent⟩

/-- C9 witness: in the two-fixture merge the two input Pages entries are
`(1,0)` and `(7,0)`; the reconciled root keeps the later identifier. -/
theorem C9_last_pages_id_witness :
    exE0.1 = (7, 0) ∧
    ∃ (out : Document) (f : ObjectId → ObjectId), merge_pdfs_from exDocs = .ok out ∧
      typeTag exE0.2 = "Pages" ∧
      (∀ q ∈ pagesDictEntries exObjs, q = exE0 ∨ idLt q.1 exE0.1 = true) ∧
      (∃ pd, mapGet out.objects (f exE0.1) = some (Object.dictionary pd) ∧
        typeTag (Object.dictionary pd) = "Pages") ∧
      (∃ cd, mapGet out.objects (f exC0.1) = some (Object.dictionary cd) ∧
        dictGet cd "Pages" = some (Object.reference (f exE0.1))) ∧
      rootId out = some (f exC0.1) ∧
      (∀ k v, mapGet out.objects k = some v → typeTag v = "Page" →
        parentOf out.objects k = some (f exE0.1)) :=
  ⟨rfl,
    @C9_last_pages_id exDocs (by decide) (by decide) (by decide)
      exPages exObjs rfl exC0 exE0 exCatDict rfl rfl rfl⟩

set_option maxHeartbeats 4000000 in
/-- C10: when the retained catalog (or Pages) object is not a dictionary the
rewrite step silently leaves the document unchanged and reports success; a
stream-typed catalog thus yields a successful merge whose trailer root names
an identifier absent from the output table. -/
theorem C10_silent_skip :
    (∀ (doc : Document) (co : Object) (cid pid : ObjectId), as_dict co = none →
      update_catalog_object doc co cid pid = .ok doc) ∧
    (∀ (doc : Document) (po : Object) (dp : ObjMap) (pid : ObjectId), as_dict po = none →
      update_pages_object doc po dp pid = .ok doc) ∧
    merge_pdfs_from [streamCatalogDoc] = .ok streamOut ∧
    rootId streamOut = some (3, 0) ∧
    mapGet streamOut.objects (3, 0) = none ∧
    countTag streamOut.objects "Catalog" = 0 := by
  refine ⟨?_, ?_, rfl, rfl, rfl, rfl⟩
  · intro doc co cid pid h
    exact update_catalog_object_skip doc h cid pid
  · intro doc po dpx pid h
    exact update_pages_object_skip doc h dpx pid

/-- C10 witness: the silent skips applied to a stream object, and the
dangling root of the stream-catalog merge. -/
theorem C10_silent_skip_witness :
    update_catalog_object (Document.with_version "1.5") (Object.stream []) (1, 0) (2, 0) =
      .ok (Document.with_version "1.5") ∧
    update_pages_object (Document.with_version "1.5") (Object.stream []) [] (2, 0) =
      .ok (Document.with_version "1.5") ∧
    rootId streamOut = some (3, 0) ∧
    mapGet streamOut.objects (3, 0) = none :=
  ⟨C10_silent_skip.1 (Document.with_version "1.5") (Object.stream []) (1, 0) (2, 0) rfl,
    C10_silent_skip.2.1 (Document.with_version "1.5") (Object.stream []) [] (2, 0) rfl,
    C10_silent_skip.2.2.2.1, C10_silent_skip.2.2.2.2.1⟩

end PdfMerger
